import Mathlib

/-!
Shallow embedding of the Itok plan-compression and code-chunking engines.

Source files embedded here:
- `src/tools/validate-plan.ts` (validatePlanLevels, validatePlanScopes,
  applyDynamicChunking, applyGlobalLimits, validatePlan)
- `src/tools/validate-plan-helpers.ts` (getExpectedLevelForStepKind, mergeSteps)
- `src/tools/code-chunking.ts` (applyDechunking, chunkByFileRange)
- `src/tools/code-chunking-impl.ts` (chunkLargeSymbol)
- `src/tools/chunking-helpers.ts` (generateChunkId, generateChunkSummary,
  estimateTokenCount)
- `src/types/index.ts` (enums and record types), `src/types/schemas.ts`
  (the Zod validity predicate behind validateTaskPlan)

Modelling conventions:
- JavaScript strings are `String`, arrays are `List`, `null`/`undefined`
  optional fields are `Option`.
- Line numbers are `Int` (JS numbers; the code subtracts them).  Step `order`
  and the numeric limits are `Nat`: the tool schemas
  (`z.number().int().positive().optional()` in validate-plan.ts and
  `z.number().int().min(0)` in schemas.ts) restrict the public domain to
  non-negative integers.  A supplied limit of `0` is falsy in JS
  (`if (targetMaxPhases && ...)`), which `jsTruthyNat` reproduces.
- `Date.now()` / `Math.random()` draws are modelled by an explicit
  environment argument `env : String` standing for the
  `"timestamp-random"` text a call embeds into a generated id.  One draw is
  threaded per engine invocation; the code distinguishes ids generated
  inside one invocation by the explicit `index` argument.
- JS `Map` iteration follows key-insertion order; `insertGroup` builds the
  same association list.  `Array.from(new Set(xs))` keeps first
  occurrences, reproduced by `jsDedup`.  `Array.prototype.sort` is stable,
  reproduced by `jsSortBy` (stable insertion sort).
-/

/-- `PlanLevel` enum from types/index.ts (0 = Abstract, 1 = Planning, 2 = Execution). -/
inductive PlanLevel
  | Abstract
  | Planning
  | Execution
deriving DecidableEq, Repr

/-- Numeric value of a `PlanLevel` (the TS enum is numeric). -/
def PlanLevel.toNat : PlanLevel → Nat
  | .Abstract => 0
  | .Planning => 1
  | .Execution => 2

/-- `StepKind` enum from types/index.ts. -/
inductive StepKind
  | ClarifyGoal
  | GatherContext
  | ScanCode
  | DesignSolution
  | EditCode
  | RunTests
  | Refine
deriving DecidableEq, Repr

/-- The string value of a `StepKind` (the TS enum is string-valued; used in
group keys by applyDynamicChunking). -/
def StepKind.toStr : StepKind → String
  | .ClarifyGoal => "clarify_goal"
  | .GatherContext => "gather_context"
  | .ScanCode => "scan_code"
  | .DesignSolution => "design_solution"
  | .EditCode => "edit_code"
  | .RunTests => "run_tests"
  | .Refine => "refine"

/-- `ScopeKind` enum from types/index.ts. -/
inductive ScopeKind
  | Global
  | Module
  | File
  | Symbol
deriving DecidableEq, Repr

/-- `PlanPhase` from types/index.ts. -/
structure PlanPhase where
  id : String
  name : String
  level : PlanLevel
  order : Nat
  summary : Option String
deriving DecidableEq, Repr

/-- `PlanScope` from types/index.ts. -/
structure PlanScope where
  id : String
  kind : ScopeKind
  label : String
  selector : String
  description : Option String
deriving DecidableEq, Repr

/-- `PlanStep` from types/index.ts (the optional `status` field is carried
nowhere by the embedded functions and is omitted). -/
structure PlanStep where
  id : String
  phaseId : String
  level : PlanLevel
  order : Nat
  kind : StepKind
  title : String
  summary : String
  scopeId : Option String
  dependencies : List String
  suggestedTools : List String
deriving DecidableEq, Repr

/-- `TaskPlan` from types/index.ts (`taskKind`, `contextSummary` and
`metadata` are not consulted by the embedded functions and are omitted). -/
structure TaskPlan where
  goal : String
  phases : List PlanPhase
  scopes : List PlanScope
  steps : List PlanStep
deriving DecidableEq, Repr

/-- `PlanChange` record pushed by the validators (a type tag, a description
string, and an optional component id). -/
structure PlanChange where
  ctype : String
  description : String
  componentId : Option String
deriving DecidableEq, Repr

/-- `PlanWarning` record pushed by validatePlan. -/
structure PlanWarning where
  wtype : String
  message : String
  componentId : Option String
deriving DecidableEq, Repr

/-- JS truthiness for an optional numeric limit: `undefined` and `0` are
falsy (`if (targetMaxPhases && ...)` in applyGlobalLimits). -/
def jsTruthyNat : Option Nat → Bool
  | none => false
  | some n => n ≠ 0

/-- Walk of `jsDedup`, carrying the set of values already seen (a JS `Set`
skips a value it already holds). Structural recursion keeps it
kernel-evaluable. -/
def jsDedupAux {α : Type} [DecidableEq α] (seen : List α) : List α → List α
  | [] => []
  | x :: xs =>
    if x ∈ seen then jsDedupAux seen xs
    else x :: jsDedupAux (x :: seen) xs

/-- `Array.from(new Set(xs))`: deduplication keeping the first occurrence
of each element, in encounter order. -/
def jsDedup {α : Type} [DecidableEq α] (l : List α) : List α :=
  jsDedupAux [] l

/-- Insertion into a JS `Map`-of-arrays under key-insertion iteration order:
`map.get(key).push(v)`, creating the key at the back on first sight. -/
def insertGroup {β : Type} (key : String) (v : β) :
    List (String × List β) → List (String × List β)
  | [] => [(key, [v])]
  | (k, vs) :: rest =>
    if k = key then (k, vs ++ [v]) :: rest
    else (k, vs) :: insertGroup key v rest

/-- Build the JS `Map`-of-arrays produced by repeated `insertGroup`, keyed
by `keyOf`, iterating the list left to right. -/
def groupByKey {β : Type} (keyOf : β → String) (l : List β) :
    List (String × List β) :=
  l.foldl (fun acc v => insertGroup (keyOf v) v acc) []

/-- Insert `x` behind every already-placed element that compares
less-or-equal to it (the building block of a stable ascending sort). -/
def jsInsert {α : Type} (le : α → α → Bool) (x : α) : List α → List α
  | [] => [x]
  | y :: ys => if le y x then y :: jsInsert le x ys else x :: y :: ys

/-- `Array.prototype.sort` with an ascending comparator: a stable sort,
modelled as left-to-right insertion (equal elements keep their original
relative order). Structural recursion keeps it kernel-evaluable. -/
def jsSortBy {α : Type} (le : α → α → Bool) (l : List α) : List α :=
  l.foldl (fun acc x => jsInsert le x acc) []

/-- validate-plan-helpers.ts, getExpectedLevelForStepKind: the fixed level
policy table (refine and the default branch inherit the phase level). -/
def getExpectedLevelForStepKind (kind : StepKind) (phaseLevel : PlanLevel) : PlanLevel :=
  match kind with
  | .ClarifyGoal => .Abstract
  | .GatherContext => .Planning
  | .ScanCode => .Planning
  | .DesignSolution => .Planning
  | .EditCode => .Execution
  | .RunTests => .Execution
  | .Refine => phaseLevel

/-- validate-plan-helpers.ts, mergeSteps on a non-empty list `base :: rest`
(the merge body; the length-1 shortcut returns the base step itself). -/
def mergeStepsNE (base : PlanStep) (rest : List PlanStep) : PlanStep :=
  match rest with
  | [] => base
  | _ =>
    let steps := base :: rest
    let summaries := (steps.map (fun s => s.summary)).filter (fun s => s.length > 0)
    let mergedSummary := String.intercalate "; " summaries
    let uniqueTools := jsDedup (steps.flatMap (fun s => s.suggestedTools))
    let uniqueDeps := jsDedup (steps.flatMap (fun s => s.dependencies))
    let minOrder := rest.foldl (fun m s => Nat.min m s.order) base.order
    { base with
      summary := mergedSummary
      suggestedTools := uniqueTools
      dependencies := uniqueDeps
      order := minOrder
      title := base.title ++ " (merged " ++ toString steps.length ++ " steps)" }

/-- validate-plan-helpers.ts, mergeSteps: throws on an empty list
(`Cannot merge empty array of steps`), is the identity on a singleton, and
otherwise merges summaries, tools, dependencies and order onto the first
step. -/
def mergeSteps (steps : List PlanStep) : Except String PlanStep :=
  match steps with
  | [] => .error "Cannot merge empty array of steps"
  | base :: rest => .ok (mergeStepsNE base rest)

/-- validate-plan.ts, validatePlanLevels, body of the `steps.map` callback:
returns the (possibly corrected) step together with the change entry pushed
for it, if any. -/
def correctStepLevel (phases : List PlanPhase) (step : PlanStep) :
    PlanStep × Option PlanChange :=
  match phases.find? (fun p => p.id = step.phaseId) with
  | none => (step, none)
  | some phase =>
    if step.level ≠ getExpectedLevelForStepKind step.kind phase.level then
      ({ step with level := getExpectedLevelForStepKind step.kind phase.level },
       some { ctype := "level_corrected"
              description := "Changed step \"" ++ step.title ++ "\" level from "
                ++ toString step.level.toNat ++ " to "
                ++ toString (getExpectedLevelForStepKind step.kind phase.level).toNat
              componentId := some step.id })
    else (step, none)

/-- validate-plan.ts, validatePlanLevels: rewrite every step whose level
disagrees with the policy table, collecting one change entry per rewrite. -/
def validatePlanLevels (plan : TaskPlan) : TaskPlan × List PlanChange :=
  let results := plan.steps.map (correctStepLevel plan.phases)
  ({ plan with steps := results.map (fun r => r.1) },
   results.filterMap (fun r => r.2))

/-- The global scope validatePlanScopes synthesizes when none exists; its
id embeds the `Date.now()` draw `env` (`scope-global-${Date.now()}`). -/
def autoGlobalScope (env : String) : PlanScope :=
  { id := "scope-global-" ++ env
    kind := ScopeKind.Global
    label := "Workspace"
    selector := "workspace root"
    description := some "Entire workspace (auto-created)" }

/-- validate-plan.ts, validatePlanScopes: synthesize a global scope when
none exists (its id embeds the `Date.now()` draw `env`), then reassign every
step whose non-null scopeId does not resolve to the global scope id. -/
def validatePlanScopes (plan : TaskPlan) (env : String) :
    TaskPlan × List PlanChange :=
  let found := plan.scopes.find? (fun s => s.kind = ScopeKind.Global)
  let branch : List PlanScope × String × List PlanChange :=
    match found with
    | none =>
      (plan.scopes ++ [autoGlobalScope env],
       (autoGlobalScope env).id,
       [{ ctype := "scope_created", description := "Created missing global scope",
          componentId := some (autoGlobalScope env).id : PlanChange }])
    | some g => (plan.scopes, g.id, [])
  let updatedScopes := branch.1
  let globalScopeId := branch.2.1
  let createChanges := branch.2.2
  let validScopeIds := updatedScopes.map (fun s => s.id)
  let results : List (PlanStep × Option PlanChange) := plan.steps.map (fun step =>
    match step.scopeId with
    | none => (step, none)
    | some sid =>
      if sid ∈ validScopeIds then (step, none)
      else
        ({ step with scopeId := some globalScopeId },
         some { ctype := "scope_reassigned"
                description := "Reassigned step \"" ++ step.title
                  ++ "\" from invalid scope to global scope"
                componentId := some step.id : PlanChange }))
  ({ plan with scopes := updatedScopes, steps := results.map (fun r => r.1) },
   createChanges ++ results.filterMap (fun r => r.2))

/-- JS `Map.set` on an association list (overwrite an existing key in
place, append a new key at the back). -/
def setAssoc (k v : String) : List (String × String) → List (String × String)
  | [] => [(k, v)]
  | (k2, v2) :: rest =>
    if k2 = k then (k, v) :: rest else (k2, v2) :: setAssoc k v rest

/-- `mergedStepIds.get(depId) || depId` in applyDynamicChunking: assoc-list
lookup with JS falsy fallback (an empty mapped string also falls back). -/
def jsLookupOr (m : List (String × String)) (d : String) : String :=
  match m.lookup d with
  | some v => if v = "" then d else v
  | none => d

/-- Group key `${phaseId}|${scopeKey}|${kind}` of applyDynamicChunking,
with `scopeKey = step.scopeId || "null"` (a null or empty scopeId is the
falsy case). -/
def chunkGroupKey (step : PlanStep) : String :=
  let scopeKey := match step.scopeId with
    | none => "null"
    | some s => if s = "" then "null" else s
  step.phaseId ++ "|" ++ scopeKey ++ "|" ++ step.kind.toStr

/-- Accumulator state of the `groups.forEach` merge pass in
applyDynamicChunking: merged steps so far, processed ids, ids to remove,
change entries. -/
structure ChunkPassState where
  mergedSteps : List PlanStep
  processedStepIds : List String
  stepsToRemove : List String
  changes : List PlanChange

/-- One group of the `groups.forEach` merge pass of applyDynamicChunking:
small groups pass their not-yet-processed steps through, over-limit groups
are collapsed by mergeSteps (never empty there, so the merge body runs on
`base :: rest`). -/
def chunkOneGroup (limit : Nat) (st : ChunkPassState) (gs : List PlanStep) :
    ChunkPassState :=
  if gs.length ≤ limit then
    gs.foldl (fun st step =>
      if step.id ∈ st.processedStepIds then st
      else { st with mergedSteps := st.mergedSteps ++ [step]
                     processedStepIds := st.processedStepIds ++ [step.id] }) st
  else
    match gs with
    | [] => st
    | base :: rest =>
      let mergedStep := mergeStepsNE base rest
      let st := { st with mergedSteps := st.mergedSteps ++ [mergedStep] }
      let st := gs.foldl (fun st step =>
        { st with
          processedStepIds := st.processedStepIds ++ [step.id]
          stepsToRemove :=
            if step.id ≠ mergedStep.id then st.stepsToRemove ++ [step.id]
            else st.stepsToRemove }) st
      { st with changes := st.changes ++
          [{ ctype := "steps_merged"
             description := "Merged " ++ toString gs.length
               ++ " steps into chunk: " ++ mergedStep.title
             componentId := some mergedStep.id }] }

/-- validate-plan.ts, applyDynamicChunking: group the Execution-level steps
by (phaseId, scopeId, kind); merge every over-limit group into one step;
redirect dependencies of all remaining steps from absorbed ids to the
surviving merged id, deduplicate them and drop self references; finally
drop the absorbed steps. A falsy limit (absent or 0) is the identity. -/
def applyDynamicChunking (plan : TaskPlan) (maxMicroStepsPerPhase : Option Nat) :
    TaskPlan × List PlanChange :=
  if jsTruthyNat maxMicroStepsPerPhase = false then (plan, [])
  else
    let limit := maxMicroStepsPerPhase.getD 0
    let groups := groupByKey chunkGroupKey
      (plan.steps.filter (fun s => s.level = PlanLevel.Execution))
    let st0 : ChunkPassState := ⟨[], [], [], []⟩
    let st := groups.foldl (fun st g => chunkOneGroup limit st g.2) st0
    let mergedSteps := st.mergedSteps ++
      plan.steps.filter (fun s => s.id ∉ st.processedStepIds)
    let mergedStepIds : List (String × String) :=
      groups.foldl (fun m g =>
        if g.2.length > limit then
          match mergedSteps.find? (fun s =>
            some s.id = (g.2.head?.map (fun b => b.id))) with
          | some mergedStep =>
            g.2.foldl (fun m oldStep =>
              if oldStep.id ≠ mergedStep.id then setAssoc oldStep.id mergedStep.id m
              else m) m
          | none => m
        else m) []
    let finalSteps := mergedSteps.map (fun step =>
      let updatedDeps := step.dependencies.map (jsLookupOr mergedStepIds)
      { step with dependencies := (jsDedup updatedDeps).filter (fun i => i ≠ step.id) })
    let finalStepsFiltered := finalSteps.filter (fun s => s.id ∉ st.stepsToRemove)
    ({ plan with steps := finalStepsFiltered }, st.changes)

/-- validate-plan.ts, applyGlobalLimits, the `targetMaxPhases` section
(lines 315-328): keep the first `targetMaxPhases` phases and drop every
step whose phase was dropped (dependency lists are not touched here).
Returns (kept phases, kept steps, changes). -/
def applyPhaseLimit (plan : TaskPlan) (targetMaxPhases : Option Nat) :
    List PlanPhase × List PlanStep × List PlanChange :=
  if jsTruthyNat targetMaxPhases ∧ plan.phases.length > targetMaxPhases.getD 0 then
    (plan.phases.take (targetMaxPhases.getD 0),
     plan.steps.filter (fun s => s.phaseId ∈
       (plan.phases.take (targetMaxPhases.getD 0)).map (fun p => p.id)),
     [{ ctype := "phases_truncated"
        description := "Truncated plan from " ++ toString plan.phases.length
          ++ " to " ++ toString (targetMaxPhases.getD 0) ++ " phases"
        componentId := none }])
  else (plan.phases, plan.steps, [])

/-- validate-plan.ts, applyGlobalLimits, the `targetMaxSteps` section
(lines 331-379): group the remaining steps by phase, keep each over-limit
phase to its `targetMaxSteps` lowest-order steps (stripping the kept steps
of that phase of dependencies on the steps removed from the same phase),
then restore the first remaining step if everything was dropped. Returns
(kept steps, changes). -/
def applyStepLimit (updatedSteps : List PlanStep)
    (targetMaxSteps : Option Nat) : List PlanStep × List PlanChange :=
  let tms := targetMaxSteps.getD 0
  if jsTruthyNat targetMaxSteps then
    let stepsByPhase := groupByKey (fun s => s.phaseId) updatedSteps
    let acc := stepsByPhase.foldl (fun (acc : List PlanStep × Nat) g =>
      let phaseSteps := g.2
      if phaseSteps.length > tms then
        let sortedSteps := jsSortBy (fun a b => a.order ≤ b.order) phaseSteps
        let keptSteps := sortedSteps.take tms
        let removedSteps := sortedSteps.drop tms
        let removedStepIds := removedSteps.map (fun s => s.id)
        let keptSteps := keptSteps.map (fun step =>
          { step with dependencies :=
              step.dependencies.filter (fun d => d ∉ removedStepIds) })
        (acc.1 ++ keptSteps, acc.2 + removedSteps.length)
      else (acc.1 ++ phaseSteps, acc.2)) ([], 0)
    let netBranch : List PlanStep × Nat :=
      match acc.1, updatedSteps with
      | [], u :: _ => ([u], updatedSteps.length - 1)
      | fs, _ => (fs, acc.2)
    let truncChanges : List PlanChange :=
      if netBranch.2 > 0 then
        [{ ctype := "steps_truncated"
           description := "Truncated " ++ toString netBranch.2
             ++ " steps to respect maxSteps per phase limit"
           componentId := none }]
      else []
    (netBranch.1, truncChanges)
  else (updatedSteps, [])

/-- validate-plan.ts, applyGlobalLimits: truncate to `targetMaxPhases`
phases (cascade-dropping steps of removed phases, without touching any
dependency list), then cap each phase at `targetMaxSteps` lowest-order
steps. Falsy limits are ignored. -/
def applyGlobalLimits (plan : TaskPlan)
    (targetMaxPhases targetMaxSteps : Option Nat) :
    TaskPlan × List PlanChange :=
  let phaseBranch := applyPhaseLimit plan targetMaxPhases
  let stepBranch := applyStepLimit phaseBranch.2.1 targetMaxSteps
  ({ plan with phases := phaseBranch.1, steps := stepBranch.1 },
   phaseBranch.2.2 ++ stepBranch.2)

/-- types/schemas.ts, taskPlanSchema as a Boolean validity predicate: the
non-emptiness constraints on fields and collections, plus the three refine
checks (step phaseIds resolve, step scopeIds resolve or are null, step
dependencies resolve). `validateTaskPlan` parses with this schema and
returns a structurally equal plan, or throws. -/
def validTaskPlanB (plan : TaskPlan) : Bool :=
  plan.goal ≠ "" &&
  plan.phases.length ≥ 1 &&
  plan.phases.all (fun p => p.id ≠ "" && p.name ≠ "") &&
  plan.scopes.all (fun s => s.id ≠ "" && s.label ≠ "" && s.selector ≠ "") &&
  plan.steps.length ≥ 1 &&
  plan.steps.all (fun s =>
    s.id ≠ "" && s.phaseId ≠ "" && s.title ≠ "" && s.summary ≠ "") &&
  plan.steps.all (fun s => plan.phases.any (fun p => p.id = s.phaseId)) &&
  plan.steps.all (fun s =>
    match s.scopeId with
    | none => true
    | some sid => plan.scopes.any (fun sc => sc.id = sid)) &&
  plan.steps.all (fun s =>
    s.dependencies.all (fun d => plan.steps.any (fun s2 => s2.id = d)))

/-- Options record of validatePlan (each limit optional). -/
structure ValidatePlanOptions where
  targetMaxPhases : Option Nat := none
  targetMaxSteps : Option Nat := none
  maxMicroStepsPerPhase : Option Nat := none
deriving DecidableEq, Repr

/-- Result of validatePlan. The derived `stats` record and the `toon` text
rendering are computed from `plan`/`changes` and are not consulted by any
embedded claim; they are omitted here. -/
structure ValidatePlanResult where
  plan : TaskPlan
  warnings : List PlanWarning
  changes : List PlanChange
deriving DecidableEq, Repr

/-- validate-plan.ts, validatePlan, step 5 (lines 438-455): if the limits
left zero steps while the original plan had at least one, restore the
original first step (reassigned to the first remaining phase if its own
phase is gone) and record a warning. -/
def reinsertFirstStep (planBefore afterLimits : TaskPlan) :
    TaskPlan × List PlanWarning :=
  match afterLimits.steps, planBefore.steps with
  | [], firstStep :: _ =>
    let firstPhase := afterLimits.phases.find? (fun p => p.id = firstStep.phaseId)
    if firstPhase.isSome ∨ afterLimits.phases ≠ [] then
      let firstStep :=
        match firstPhase, afterLimits.phases with
        | none, ph :: _ => { firstStep with phaseId := ph.id }
        | _, _ => firstStep
      ({ afterLimits with steps := [firstStep] },
       [{ wtype := "steps_preserved"
          message := "Preserved at least one step to meet validation requirements"
          componentId := some firstStep.id }])
    else (afterLimits, [])
  | _, _ => (afterLimits, [])

/-- validate-plan.ts, validatePlan: the pipeline level validation → scope
validation → dynamic chunking → global limits → last-resort step
reinsertion → final schema validation (which only appends a warning on
failure; zod parse returns a structurally equal plan on success). `env` is
the `Date.now()` draw used if a global scope has to be created. -/
def validatePlan (plan : TaskPlan) (options : ValidatePlanOptions)
    (env : String) : ValidatePlanResult :=
  let levelResult := validatePlanLevels plan
  let scopeResult := validatePlanScopes levelResult.1 env
  let chunkingResult := applyDynamicChunking scopeResult.1 options.maxMicroStepsPerPhase
  let limitsResult := applyGlobalLimits chunkingResult.1
    options.targetMaxPhases options.targetMaxSteps
  let allChanges := levelResult.2 ++ scopeResult.2 ++ chunkingResult.2 ++ limitsResult.2
  let afterLimits := limitsResult.1
  let reinserted := reinsertFirstStep plan afterLimits
  let validationWarnings : List PlanWarning :=
    if validTaskPlanB reinserted.1 then []
    else [{ wtype := "validation_error"
            message := "Plan validation failed"
            componentId := none }]
  { plan := reinserted.1
    warnings := reinserted.2 ++ validationWarnings
    changes := allChanges }

/-- `ChunkType` enum from types/index.ts. -/
inductive ChunkType
  | Symbol
  | SubSymbol
  | FileRange
  | Summary
deriving DecidableEq, Repr

/-- `BlockInfo` from types/index.ts (a logical block found by the boundary
detector). -/
structure BlockInfo where
  type : String
  startLine : Int
  endLine : Int
  depth : Nat
deriving DecidableEq, Repr

/-- `ChunkMetadata` from types/index.ts. -/
structure ChunkMetadata where
  type : ChunkType
  lineCount : Int
  estimatedTokens : Option Nat
  summary : Option String
  symbolName : Option String
  symbolKind : Option String
  parentSymbolName : Option String
  mergedFrom : Option (List String)
deriving DecidableEq, Repr

/-- `CodeChunk` from types/index.ts. -/
structure CodeChunk where
  id : String
  filePath : String
  startLine : Int
  endLine : Int
  type : ChunkType
  metadata : ChunkMetadata
  content : Option String
  blocks : Option (List BlockInfo)
deriving DecidableEq, Repr

/-- `ChunkingOptions` after `mergeOptions` has filled the defaults
(maxChunksPerStep 5, maxLinesPerChunk 100, includeContent true,
applyDechunking true); the embedded functions receive the resolved
record. -/
structure ChunkingOptions where
  maxChunksPerStep : Nat
  maxLinesPerChunk : Nat
  maxTokensPerChunk : Option Nat := none
  includeContent : Bool := true
  applyDechunking : Bool := true
deriving DecidableEq, Repr

/-- chunking-helpers.ts, generateChunkId: the id text is the tag (the
source calls it a prefix), a dash, a `timestamp-random` draw, and an
optional `-index`; `env` stands for the draw made from `Date.now()` and
`Math.random()`. -/
def generateChunkId (env tag : String) (index : Option Nat) : String :=
  tag ++ "-" ++ env ++ (match index with
    | some i => "-" ++ toString i
    | none => "")

/-- chunking-helpers.ts, estimateTokenCount: `Math.ceil(charCount / 4)`. -/
def estimateTokenCount (code : String) : Nat :=
  (code.length + 3) / 4

/-- JS truthiness of an optional string (`if (symbolName)`): absent and the
empty string are falsy. -/
def strTruthy : Option String → Option String
  | none => none
  | some s => if s = "" then none else some s

/-- chunking-helpers.ts, generateChunkSummary, per-chunk description:
prefer a truthy symbolName, else a truthy summary, else a bare line-range
phrase. -/
def chunkDescription (chunk : CodeChunk) : String :=
  let lineCount := chunk.endLine - chunk.startLine + 1
  let range := "lines " ++ toString chunk.startLine ++ "-" ++ toString chunk.endLine
  match strTruthy chunk.metadata.symbolName with
  | some sn => sn ++ " (" ++ range ++ ", " ++ toString lineCount ++ " lines)"
  | none =>
    match strTruthy chunk.metadata.summary with
    | some sm => sm ++ " (" ++ range ++ ", " ++ toString lineCount ++ " lines)"
    | none => range ++ " (" ++ toString lineCount ++ " lines)"

/-- chunking-helpers.ts, generateChunkSummary: group the merged chunks by
file, describe each contributor, join per file with `, ` and across files
with `; `. -/
def generateChunkSummary (chunks : List CodeChunk) : String :=
  let byFile := groupByKey (fun c => c.filePath) chunks
  "Merged chunks: " ++ String.intercalate "; "
    (byFile.map (fun g => g.1 ++ ": "
      ++ String.intercalate ", " (g.2.map chunkDescription)))

/-- code-chunking.ts, applyDechunking, the Summary chunk built for one
batch `batch = firstChunk :: _` (lines 309-332): span from the first
chunk's startLine to the last chunk's endLine, token counts summed,
`mergedFrom` = the batch's ids. -/
def mkSummaryChunk (env filePath : String) (firstChunk : CodeChunk)
    (batch : List CodeChunk) : CodeChunk :=
  let lastChunk := batch.getLast?.getD firstChunk
  let totalLines := lastChunk.endLine - firstChunk.startLine + 1
  { id := generateChunkId env "merged" none
    filePath := filePath
    startLine := firstChunk.startLine
    endLine := lastChunk.endLine
    type := ChunkType.Summary
    metadata :=
      { type := ChunkType.Summary
        lineCount := totalLines
        estimatedTokens :=
          some (batch.foldl (fun s c => s + c.metadata.estimatedTokens.getD 0) 0)
        summary := some (generateChunkSummary batch)
        symbolName := none
        symbolKind := none
        parentSymbolName := none
        mergedFrom := some (batch.map (fun c => c.id)) }
    content := none
    blocks := none }

/-- code-chunking.ts, applyDechunking, the per-file merge loop (lines
290-339): walk the sorted chunks in batches of up to `N`; a batch of one
passes through, a larger batch becomes one Summary chunk plus a warning.
The `N = 0` case never runs: applyDechunking is entered only when
`chunks.length > maxChunksPerStep ≥ 0`, and with `N = 0` the source loop
would fault on an empty batch; the claims all assume `N ≥ 1`. -/
def mergeFileChunks (env : String) (N : Nat) (filePath : String) :
    List CodeChunk → List CodeChunk × List String
  | [] => ([], [])
  | c :: cs =>
    match N with
    | 0 => ([], [])
    | n + 1 =>
      let tail := cs.take n
      if tail = [] then
        let r := mergeFileChunks env (n + 1) filePath cs
        (c :: r.1, r.2)
      else
        let batch := c :: tail
        let merged := mkSummaryChunk env filePath c batch
        let lastChunk := batch.getLast?.getD c
        let warning := "Merged " ++ toString batch.length
          ++ " chunks into summary (lines " ++ toString c.startLine
          ++ "-" ++ toString lastChunk.endLine ++ ")"
        let r := mergeFileChunks env (n + 1) filePath (cs.drop n)
        (merged :: r.1, warning :: r.2)
termination_by l => l.length
decreasing_by
  · simp only [List.length_cons]
    exact Nat.lt_succ_self _
  · simp only [List.length_cons, List.length_drop]
    omega

/-- code-chunking.ts, applyDechunking: if more chunks than
`maxChunksPerStep` arrived, group them by file (insertion order), sort each
group by startLine (stable), and run the per-file merge loop; otherwise
return the chunks untouched. -/
def applyDechunking (env : String) (chunks : List CodeChunk)
    (options : ChunkingOptions) : List CodeChunk × List String :=
  if chunks.length ≤ options.maxChunksPerStep then (chunks, [])
  else
    let byFile := groupByKey (fun c => c.filePath) chunks
    byFile.foldl (fun (acc : List CodeChunk × List String) g =>
      let fileChunks := jsSortBy (fun a b => a.startLine ≤ b.startLine) g.2
      let r := mergeFileChunks env options.maxChunksPerStep g.1 fileChunks
      (acc.1 ++ r.1, acc.2 ++ r.2)) ([], [])

/-- One FileRange chunk of chunkByFileRange (both the single-chunk case and
one window of the split case; the split case carries an index in its
id). -/
def mkFileRangeChunk (env filePath : String) (a b : Int) (index : Option Nat) :
    CodeChunk :=
  let lineCount := b - a + 1
  { id := generateChunkId env "file" index
    filePath := filePath
    startLine := a
    endLine := b
    type := ChunkType.FileRange
    metadata :=
      { type := ChunkType.FileRange
        lineCount := lineCount
        estimatedTokens := some 0
        summary := some ("File range: lines " ++ toString a ++ "-" ++ toString b
          ++ " (" ++ toString lineCount ++ " lines)")
        symbolName := none
        symbolKind := none
        parentSymbolName := none
        mergedFrom := none }
    content := none
    blocks := none }

/-- code-chunking.ts, chunkByFileRange, the `while (currentStart <=
endLine)` window loop of the split case. A `maxL = 0` never runs (the
source would loop forever; maxLinesPerChunk is a positive option with
default 100). -/
def fileRangeWindows (env filePath : String) (maxL : Nat) (endLine : Int)
    (currentStart : Int) (chunkIndex : Nat) : List CodeChunk :=
  if h : currentStart ≤ endLine then
    match maxL with
    | 0 => []
    | m + 1 =>
      let currentEnd := min (currentStart + m) endLine
      mkFileRangeChunk env filePath currentStart currentEnd (some chunkIndex)
        :: fileRangeWindows env filePath (m + 1) endLine (currentEnd + 1)
          (chunkIndex + 1)
  else []
termination_by (endLine + 1 - currentStart).toNat
decreasing_by
  simp only [Int.min_def]
  split <;> omega

/-- code-chunking.ts, chunkByFileRange: one FileRange chunk when the range
fits in `maxLinesPerChunk`, else consecutive fixed windows. -/
def chunkByFileRange (env filePath : String) (startLine endLine : Int)
    (options : ChunkingOptions) : List CodeChunk :=
  if endLine - startLine + 1 ≤ (options.maxLinesPerChunk : Int) then
    [mkFileRangeChunk env filePath startLine endLine none]
  else
    fileRangeWindows env filePath options.maxLinesPerChunk endLine startLine 0

/-- `code.split("\n")` on the character list (structural, so the kernel
can evaluate concrete instances; `String.splitOn` itself recurses on a
byte-position measure the kernel cannot unfold). -/
def splitLinesAux : List Char → List Char → List String
  | [], acc => [String.mk acc.reverse]
  | c :: cs, acc =>
    if c = '\n' then String.mk acc.reverse :: splitLinesAux cs []
    else splitLinesAux cs (c :: acc)

/-- `code.split("\n")`. -/
def splitLines (s : String) : List String :=
  splitLinesAux s.data []

/-- `lines.slice(a, b).join("\n")` used by chunkLargeSymbol to cut a
sub-chunk's content out of the symbol's lines (indices are non-negative and
in range for every call the source makes: the boundaries lie inside
`[startLine, endLine]`). -/
def sliceLines (lines : List String) (a b : Int) : String :=
  String.intercalate "\n" ((lines.drop a.toNat).take (b - a).toNat)

/-- code-chunking-impl.ts, chunkLargeSymbol, one emitted sub-chunk covering
`[a, b]`, with the part number `idx + 1` in its symbolName, the parent
symbol recorded, and the detected blocks it fully contains attached. -/
def mkSubChunk (env filePath symbolName symbolKind : String)
    (blocks : List BlockInfo) (lines : List String) (startLine : Int)
    (includeContent : Bool) (idx : Nat) (a b : Int) : CodeChunk :=
  let chunkCode := sliceLines lines (a - startLine) (b - startLine + 1)
  { id := generateChunkId env "sub-symbol" (some idx)
    filePath := filePath
    startLine := a
    endLine := b
    type := ChunkType.SubSymbol
    metadata :=
      { type := ChunkType.SubSymbol
        lineCount := b - a + 1
        estimatedTokens := some (estimateTokenCount chunkCode)
        summary := some ("Sub-chunk of " ++ symbolKind ++ " " ++ symbolName
          ++ ": lines " ++ toString a ++ "-" ++ toString b)
        symbolName := some (symbolName ++ " (part " ++ toString (idx + 1) ++ ")")
        symbolKind := some symbolKind
        parentSymbolName := some symbolName
        mergedFrom := none }
    content := if includeContent then some chunkCode else none
    blocks := some (blocks.filter (fun bl => bl.startLine ≥ a && bl.endLine ≤ b)) }

/-- code-chunking-impl.ts, chunkLargeSymbol, the inner `while` loop that
splits one over-large boundary pair `[currentStart, chunkEnd]` into
consecutive windows of at most `maxL` lines, threading the chunk index.
`maxL = 0` never runs (the source would loop forever; the option is
positive with default 100). -/
def symbolWindows (env filePath symbolName symbolKind : String)
    (blocks : List BlockInfo) (lines : List String) (startLine : Int)
    (includeContent : Bool) (maxL : Nat) (chunkEnd : Int)
    (currentStart : Int) (idx : Nat) : List CodeChunk × Nat :=
  if h : currentStart ≤ chunkEnd then
    match maxL with
    | 0 => ([], idx)
    | m + 1 =>
      let currentEnd := min (currentStart + m) chunkEnd
      let c := mkSubChunk env filePath symbolName symbolKind blocks lines
        startLine includeContent idx currentStart currentEnd
      let r := symbolWindows env filePath symbolName symbolKind blocks lines
        startLine includeContent (m + 1) chunkEnd (currentEnd + 1) (idx + 1)
      (c :: r.1, r.2)
  else ([], idx)
termination_by (chunkEnd + 1 - currentStart).toNat
decreasing_by
  simp only [Int.min_def]
  split <;> omega

/-- code-chunking-impl.ts, chunkLargeSymbol, the walk over consecutive
sorted boundary pairs (lines 81-151): a pair shorter than 5 lines is
skipped unless it is the final pair; a pair over `maxL` lines is split into
windows; otherwise the pair is emitted as one sub-chunk. -/
def subChunksGo (env filePath symbolName symbolKind : String)
    (blocks : List BlockInfo) (lines : List String) (startLine : Int)
    (includeContent : Bool) (maxL : Nat) :
    List Int → Nat → List CodeChunk
  | b1 :: b2 :: rest, idx =>
    let count := b2 - b1 + 1
    if count < 5 ∧ rest ≠ [] then
      subChunksGo env filePath symbolName symbolKind blocks lines startLine
        includeContent maxL (b2 :: rest) idx
    else if count > (maxL : Int) then
      let w := symbolWindows env filePath symbolName symbolKind blocks lines
        startLine includeContent maxL b2 b1 idx
      w.1 ++ subChunksGo env filePath symbolName symbolKind blocks lines
        startLine includeContent maxL (b2 :: rest) w.2
    else
      mkSubChunk env filePath symbolName symbolKind blocks lines startLine
        includeContent idx b1 b2
        :: subChunksGo env filePath symbolName symbolKind blocks lines
          startLine includeContent maxL (b2 :: rest) (idx + 1)
  | _, _ => []

/-- code-chunking-impl.ts, chunkLargeSymbol: build the boundary set
`{startLine} ∪ {block starts and ends} ∪ {comment lines} ∪ {endLine}` (a JS
Set, then sorted ascending) and walk consecutive pairs with `subChunksGo`.
The outputs of the regex boundary detector (`detectLogicalBlocks` and
`findCommentBoundaries` of chunking-helpers.ts, heuristics over the raw
text) enter as the `blocks` and `commentBoundaries` arguments; the theorems
quantify over them. -/
def chunkLargeSymbol (env filePath symbolName symbolKind : String)
    (startLine endLine : Int) (code : String) (blocks : List BlockInfo)
    (commentBoundaries : List Int) (options : ChunkingOptions) :
    List CodeChunk :=
  let lines := splitLines code
  let allBoundaries := jsDedup
    ([startLine] ++ blocks.flatMap (fun b => [b.startLine, b.endLine])
      ++ commentBoundaries ++ [endLine])
  let sortedBoundaries := jsSortBy (fun a b => a ≤ b) allBoundaries
  subChunksGo env filePath symbolName symbolKind blocks lines startLine
    options.includeContent options.maxLinesPerChunk sortedBoundaries 0

/-- Placeholder step used to make store dereferencing total; every
reference the theorems use is in range. -/
def defStep : PlanStep :=
  { id := "", phaseId := "", level := PlanLevel.Abstract, order := 0
    kind := StepKind.ClarifyGoal, title := "", summary := "", scopeId := none
    dependencies := [], suggestedTools := [] }

/-- Dereference a step object in the JS heap model (a list of step objects
indexed by position). -/
def derefStep (store : List PlanStep) (r : Nat) : PlanStep :=
  store.getD r defStep

/-- A plan under reference semantics: the `steps` array holds references
into a shared store of step objects, as JS arrays hold object references.
`[...plan.steps]` copies the array but shares the objects, which is what
lets `step.dependencies = step.dependencies.filter(...)` inside
applyGlobalLimits write through to the caller's plan. -/
structure TaskPlanRef where
  goal : String
  phases : List PlanPhase
  scopes : List PlanScope
  steps : List Nat
deriving DecidableEq, Repr

/-- validate-plan.ts, applyGlobalLimits under reference semantics: the same
computation as `applyGlobalLimits`, with the step objects held in a shared
store; the per-phase truncation branch updates the kept step objects in the
store in place (`step.dependencies = step.dependencies.filter(...)`,
line 357), so the write is visible through every other reference to the
same object, including the caller's. Only `dependencies` is ever written,
so threading the store through the fold matches the JS evaluation order. -/
def applyGlobalLimitsRef (store : List PlanStep) (plan : TaskPlanRef)
    (targetMaxPhases targetMaxSteps : Option Nat) :
    List PlanStep × TaskPlanRef :=
  let tmp := targetMaxPhases.getD 0
  let phaseBranch : List PlanPhase × List Nat :=
    if jsTruthyNat targetMaxPhases ∧ plan.phases.length > tmp then
      let updatedPhases := plan.phases.take tmp
      let keptPhaseIds := updatedPhases.map (fun p => p.id)
      (updatedPhases,
       plan.steps.filter (fun r => (derefStep store r).phaseId ∈ keptPhaseIds))
    else (plan.phases, plan.steps)
  let updatedPhases := phaseBranch.1
  let updatedSteps := phaseBranch.2
  let tms := targetMaxSteps.getD 0
  let stepBranch : List PlanStep × List Nat :=
    if jsTruthyNat targetMaxSteps then
      let stepsByPhase := groupByKey (fun r => (derefStep store r).phaseId) updatedSteps
      let acc := stepsByPhase.foldl
        (fun (acc : List PlanStep × List Nat) g =>
          let store := acc.1
          let phaseSteps := g.2
          if phaseSteps.length > tms then
            let sortedSteps := jsSortBy
              (fun a b => (derefStep store a).order ≤ (derefStep store b).order)
              phaseSteps
            let keptSteps := sortedSteps.take tms
            let removedSteps := sortedSteps.drop tms
            let removedStepIds := removedSteps.map (fun r => (derefStep store r).id)
            let store := keptSteps.foldl (fun st r =>
              let step := derefStep st r
              st.set r { step with dependencies :=
                step.dependencies.filter (fun d => d ∉ removedStepIds) }) store
            (store, acc.2 ++ keptSteps)
          else (store, acc.2 ++ phaseSteps)) (store, [])
      let finalRefs : List Nat :=
        match acc.2, updatedSteps with
        | [], u :: _ => [u]
        | fs, _ => fs
      (acc.1, finalRefs)
    else (store, updatedSteps)
  (stepBranch.1,
   { plan with phases := updatedPhases, steps := stepBranch.2 })

/-- The dependency graph of a plan: one `(id, dependencies)` pair per step,
in step order. Every claim about dangling edges or cycles is a property of
this projection alone. -/
def depsPairsOf (p : TaskPlan) : List (String × List String) :=
  p.steps.map (fun s => (s.id, s.dependencies))

/-- No dangling edges: every dependency id of every node names a node of
the graph. -/
def graphNoDangling (g : List (String × List String)) : Prop :=
  ∀ pr ∈ g, ∀ d ∈ pr.2, d ∈ g.map (fun x => x.1)

instance (g : List (String × List String)) : Decidable (graphNoDangling g) := by
  unfold graphNoDangling
  infer_instance

/-- No dangling edges in a plan (spec: every step's dependency ids exist in
the plan's step set). -/
def noDanglingDeps (p : TaskPlan) : Prop :=
  graphNoDangling (depsPairsOf p)

instance (p : TaskPlan) : Decidable (noDanglingDeps p) := by
  unfold noDanglingDeps
  infer_instance

/-- One edge of the dependency relation restricted to present ids: `a`
depends on `b`, and both are nodes of the graph. -/
def graphRel (g : List (String × List String)) (a b : String) : Prop :=
  ∃ pr ∈ g, pr.1 = a ∧ b ∈ pr.2 ∧ b ∈ g.map (fun x => x.1)

/-- Acyclicity of the dependency relation restricted to present ids: no id
reaches itself through one or more edges. -/
def graphAcyclic (g : List (String × List String)) : Prop :=
  ∀ a, ¬ Relation.TransGen (graphRel g) a a

/-- Number of scopes of kind global in a scope list. -/
def countGlobal (scopes : List PlanScope) : Nat :=
  (scopes.filter (fun s => s.kind = ScopeKind.Global)).length

/-- Every step's scopeId is null or resolves to a scope of the plan. -/
def scopeIdsResolve (p : TaskPlan) : Prop :=
  ∀ s ∈ p.steps, ∀ sid, s.scopeId = some sid → sid ∈ p.scopes.map (fun sc => sc.id)

instance (p : TaskPlan) : Decidable (scopeIdsResolve p) := by
  unfold scopeIdsResolve
  infer_instance

/-- Blank out a chunk's generated id (the only output component that
depends on the `Date.now()`/`Math.random()` draw). -/
def eraseChunkId (c : CodeChunk) : CodeChunk :=
  { c with id := "" }

/-- The spec's Summary-chunk span property at one output chunk: a non-empty
`mergedFrom`, startLine = min over the contributors (the input chunks whose
ids are listed), endLine = max over the contributors. -/
def summarySpanOk (input : List CodeChunk) (c : CodeChunk) : Bool :=
  match c.metadata.mergedFrom with
  | none => false
  | some ids =>
    decide (ids ≠ []) &&
    (((input.filter (fun c2 => c2.id ∈ ids)).map
        (fun c2 => c2.startLine)).min? == some c.startLine) &&
    (((input.filter (fun c2 => c2.id ∈ ids)).map
        (fun c2 => c2.endLine)).max? == some c.endLine)

/-- A FileRange test chunk with id `c<i>` (counterexample fixture). -/
def sampleChunk (i : Nat) (f : String) (a b : Int) : CodeChunk :=
  { id := "c" ++ toString i
    filePath := f
    startLine := a
    endLine := b
    type := ChunkType.FileRange
    metadata :=
      { type := ChunkType.FileRange
        lineCount := b - a + 1
        estimatedTokens := some 0
        summary := none
        symbolName := none
        symbolKind := none
        parentSymbolName := none
        mergedFrom := none }
    content := none
    blocks := none }

/-- Resolved chunking options with the two counts of interest. -/
def optsNM (n m : Nat) : ChunkingOptions :=
  { maxChunksPerStep := n, maxLinesPerChunk := m }

/-- Fixture: 5 chunks of one file (per-file cap counterexample input). -/
def fiveChunks : List CodeChunk :=
  [sampleChunk 1 "a.ts" 1 2, sampleChunk 2 "a.ts" 3 4, sampleChunk 3 "a.ts" 5 6,
   sampleChunk 4 "a.ts" 7 8, sampleChunk 5 "a.ts" 9 10]

/-- Fixture: 10 chunks of one file (the spec's 10-chunk merge example). -/
def tenChunks : List CodeChunk :=
  (List.range 10).map (fun i =>
    sampleChunk i "a.ts" (2 * (i : Int) + 1) (2 * (i : Int) + 2))

/-- Fixture: same-file chunks with a nested span, sorted order
(1,100), (2,3), (4,5) (Summary-span counterexample input). -/
def nestedChunks : List CodeChunk :=
  [sampleChunk 1 "a.ts" 1 100, sampleChunk 2 "a.ts" 2 3, sampleChunk 3 "a.ts" 4 5]

/-- Fixture: a workspace scope of kind global. -/
def globalScope : PlanScope :=
  { id := "g1", kind := ScopeKind.Global, label := "W", selector := "w",
    description := none }

/-- Fixture phase. -/
def phase1 : PlanPhase :=
  { id := "p1", name := "P1", level := PlanLevel.Abstract, order := 1,
    summary := none }

/-- Fixture phase. -/
def phase2 : PlanPhase :=
  { id := "p2", name := "P2", level := PlanLevel.Abstract, order := 2,
    summary := none }

/-- Fixture step: Refine in an Abstract phase, so the level policy leaves
it untouched. -/
def stepS1 : PlanStep :=
  { id := "s1", phaseId := "p1", level := PlanLevel.Abstract, order := 1,
    kind := StepKind.Refine, title := "t1", summary := "sum1",
    scopeId := none, dependencies := ["s2"], suggestedTools := [] }

/-- Fixture step in phase 2, no dependencies. -/
def stepS2 : PlanStep :=
  { id := "s2", phaseId := "p2", level := PlanLevel.Abstract, order := 1,
    kind := StepKind.Refine, title := "t2", summary := "sum2",
    scopeId := none, dependencies := [], suggestedTools := [] }

/-- Fixture: schema-valid two-phase plan where s1 (kept phase) depends on
s2 (phase dropped by `targetMaxPhases = 1`). -/
def danglingPlan : TaskPlan :=
  { goal := "g", phases := [phase1, phase2], scopes := [globalScope],
    steps := [stepS1, stepS2] }

/-- Fixture: plan with two scopes of kind global. -/
def twoGlobalsPlan : TaskPlan :=
  { goal := "g", phases := [phase1], scopes := [globalScope, { globalScope with id := "g2" }],
    steps := [{ stepS1 with dependencies := [] }] }

/-- Fixture heap for the reference-semantics frame theorem: s1 (dependency
on s2) and s2 both in phase 1. -/
def frameStore : List PlanStep :=
  [{ stepS1 with phaseId := "p1" }, { stepS2 with phaseId := "p1", order := 2 }]

/-- Fixture plan-with-references for the frame theorem: its steps array
holds references 0 and 1 into `frameStore`. -/
def framePlanRef : TaskPlanRef :=
  { goal := "g", phases := [phase1], scopes := [globalScope], steps := [0, 1] }

/-- Running the level-correction callback on its own output changes
nothing: the phase lookup key and the kind are untouched by a correction,
so the second pass finds the level already at the expected value. -/
theorem correctStepLevel_idem (phases : List PlanPhase) (s : PlanStep) :
    correctStepLevel phases (correctStepLevel phases s).1 =
      ((correctStepLevel phases s).1, none) := by
  cases hf : phases.find? (fun p => p.id = s.phaseId) with
  | none => simp [correctStepLevel, hf]
  | some ph =>
    by_cases hl : s.level = getExpectedLevelForStepKind s.kind ph.level
    · have h1 : correctStepLevel phases s = (s, none) := by
        simp [correctStepLevel, hf, hl]
      rw [h1]
      simp [correctStepLevel, hf, hl]
    · have h1 : (correctStepLevel phases s).1 =
          { s with level := getExpectedLevelForStepKind s.kind ph.level } := by
        simp [correctStepLevel, hf, hl]
      rw [h1]
      simp [correctStepLevel, hf]

/-- List form of level-validation idempotence: a second pass over already
corrected steps yields no change entries and the same steps. -/
theorem validatePlanLevels_steps_aux (P : List PlanPhase) (l : List PlanStep) :
    ((l.map (fun s => (correctStepLevel P s).1)).map (correctStepLevel P)).filterMap
        (fun r => r.2) = [] ∧
    ((l.map (fun s => (correctStepLevel P s).1)).map (correctStepLevel P)).map
        (fun r => r.1) = l.map (fun s => (correctStepLevel P s).1) := by
  induction l with
  | nil => simp
  | cons a l ih =>
    simp [correctStepLevel_idem, ih.1, ih.2]

/-- C8: the level-policy table is deterministic (it is a pure function of
the (kind, phase level) pair; in this embedding that is definitional), and
level validation is idempotent: applying validatePlanLevels to its own
output produces zero change entries and leaves the plan unchanged. -/
theorem getExpectedLevel_deterministic_validateLevels_idempotent :
    (∀ (k : StepKind) (l : PlanLevel),
      getExpectedLevelForStepKind k l = getExpectedLevelForStepKind k l) ∧
    ∀ plan : TaskPlan,
      (validatePlanLevels (validatePlanLevels plan).1).2 = [] ∧
      (validatePlanLevels (validatePlanLevels plan).1).1 = (validatePlanLevels plan).1 := by
  refine ⟨fun k l => rfl, fun plan => ?_⟩
  have aux := validatePlanLevels_steps_aux plan.phases plan.steps
  constructor
  · simpa [validatePlanLevels, List.map_map, Function.comp] using aux.1
  · simp [validatePlanLevels, List.map_map, Function.comp]
    simpa [validatePlanLevels, List.map_map, Function.comp] using aux.2

/-- C9: merging zero steps is the error path of mergeSteps; merging one
step returns that exact step; and the per-file merge loop of applyDechunking
passes a batch of size one through with no id change and no kind change
(it returns the chunk itself, unmodified). -/
theorem mergeSteps_empty_error_singleton_identity :
    mergeSteps [] = Except.error "Cannot merge empty array of steps" ∧
    (∀ s : PlanStep, mergeSteps [s] = Except.ok s) ∧
    (∀ (env f : String) (N : Nat) (c : CodeChunk),
      1 ≤ N → mergeFileChunks env N f [c] = ([c], [])) := by
  refine ⟨rfl, fun s => rfl, fun env f N c hN => ?_⟩
  match N, hN with
  | n + 1, _ =>
    simp [mergeFileChunks]

/-- Closed witness for the merge edge cases: the loop passes a single chunk
through unchanged at `N = 5`. -/
theorem mergeSteps_empty_error_singleton_identity_witness :
    mergeFileChunks "e" 5 "a.ts" [sampleChunk 1 "a.ts" 1 2] =
      ([sampleChunk 1 "a.ts" 1 2], []) :=
  mergeSteps_empty_error_singleton_identity.2.2 "e" "a.ts" 5
    (sampleChunk 1 "a.ts" 1 2) (by decide)

/-- C6, evaluation at the failing input: under reference semantics,
applyGlobalLimits with `targetMaxSteps = 1` on a phase holding s1 (which
depends on s2) and s2 writes the filtered dependency array back into the
shared s1 object (validate-plan.ts line 357), so the caller's plan — whose
steps array still references objects 0 and 1 — now sees s1 without its
dependency. The claim says the input plan's dependencies are unchanged. -/
theorem applyGlobalLimits_mutates_shared_step :
    ((applyGlobalLimitsRef frameStore framePlanRef none (some 1)).1.getD 0 defStep).dependencies
        = [] ∧
    (frameStore.getD 0 defStep).dependencies = ["s2"] ∧
    framePlanRef.steps = [0, 1] ∧
    (applyGlobalLimitsRef frameStore framePlanRef none (some 1)).2.steps = [0] := by
  decide

/-- C5, counterexample: a plan holding two scopes of kind global keeps both
through validatePlanScopes and through the whole validatePlan pipeline —
the repair only synthesizes a global scope when none exists, it never
deduplicates. The claim says exactly one global scope exists afterwards. -/
theorem scopeValidation_two_globals_counterexample :
    countGlobal twoGlobalsPlan.scopes = 2 ∧
    countGlobal (validatePlanScopes twoGlobalsPlan "e").1.scopes = 2 ∧
    countGlobal (validatePlan twoGlobalsPlan {} "e").plan.scopes = 2 := by
  decide

/-- C5 as amended: after validatePlanScopes at least one global scope
exists — exactly one when the input holds at most one — and every step's
scopeId is null or resolves to a scope of the result. -/
theorem validatePlanScopes_global_and_resolution (plan : TaskPlan) (env : String) :
    1 ≤ countGlobal (validatePlanScopes plan env).1.scopes ∧
    (countGlobal plan.scopes ≤ 1 →
      countGlobal (validatePlanScopes plan env).1.scopes = 1) ∧
    scopeIdsResolve (validatePlanScopes plan env).1 := by
  cases hf : plan.scopes.find? (fun s => s.kind = ScopeKind.Global) with
  | none =>
    have hnone : ∀ sc ∈ plan.scopes, ¬ (sc.kind = ScopeKind.Global) := by
      intro sc hsc
      have := List.find?_eq_none.mp hf sc hsc
      simpa using this
    have hcount : countGlobal plan.scopes = 0 := by
      unfold countGlobal
      rw [List.filter_eq_nil_iff.mpr]
      · rfl
      · intro sc hsc
        simpa using hnone sc hsc
    constructor
    · simp [validatePlanScopes, hf, countGlobal, List.filter_append,
        autoGlobalScope]
    constructor
    · intro _
      simp only [validatePlanScopes, hf]
      unfold countGlobal at hcount ⊢
      simp [List.filter_append, hcount, autoGlobalScope]
    · intro s hs sid hsid
      simp only [validatePlanScopes, hf] at hs ⊢
      simp only [List.mem_map] at hs
      obtain ⟨r, ⟨t, ht, hrt⟩, hrs⟩ := hs
      subst hrt hrs
      cases hsc : t.scopeId with
      | none => simp [hsc] at hsid
      | some sid2 =>
        simp only [hsc] at hsid
        by_cases hv : ∃ a ∈ plan.scopes ++ [autoGlobalScope env], a.id = sid2
        · rw [if_pos hv] at hsid
          simp only [hsc, Option.some.injEq] at hsid
          subst hsid
          obtain ⟨a, ha, haid⟩ := hv
          exact List.mem_map.mpr ⟨a, ha, haid⟩
        · rw [if_neg hv] at hsid
          simp only [Option.some.injEq] at hsid
          subst hsid
          exact List.mem_map.mpr ⟨autoGlobalScope env, by simp, rfl⟩
  | some g =>
    have hg : g ∈ plan.scopes := List.mem_of_find?_eq_some hf
    have hgk : g.kind = ScopeKind.Global := by
      have := List.find?_some hf
      simpa using this
    have hone : 1 ≤ countGlobal plan.scopes := by
      unfold countGlobal
      have : g ∈ plan.scopes.filter (fun s => s.kind = ScopeKind.Global) := by
        rw [List.mem_filter]
        exact ⟨hg, by simpa using hgk⟩
      calc 1 ≤ 1 := le_refl 1
        _ ≤ _ := List.length_pos.mpr (fun hnil => by simp [hnil] at this)
    constructor
    · simpa [validatePlanScopes, hf] using hone
    constructor
    · intro hle
      have : countGlobal plan.scopes = 1 := le_antisymm hle hone
      simpa [validatePlanScopes, hf] using this
    · intro s hs sid hsid
      simp only [validatePlanScopes, hf] at hs ⊢
      simp only [List.mem_map] at hs
      obtain ⟨r, ⟨t, ht, hrt⟩, hrs⟩ := hs
      subst hrt hrs
      cases hsc : t.scopeId with
      | none => simp [hsc] at hsid
      | some sid2 =>
        simp only [hsc] at hsid
        by_cases hv : ∃ a ∈ plan.scopes, a.id = sid2
        · rw [if_pos hv] at hsid
          simp only [hsc, Option.some.injEq] at hsid
          subst hsid
          obtain ⟨a, ha, haid⟩ := hv
          exact List.mem_map.mpr ⟨a, ha, haid⟩
        · rw [if_neg hv] at hsid
          simp only [Option.some.injEq] at hsid
          subst hsid
          exact List.mem_map.mpr ⟨g, hg, rfl⟩

/-- Closed witness for the amended scope claim at a plan with one global
scope and a step with a dangling scopeId. -/
theorem validatePlanScopes_global_and_resolution_witness :
    countGlobal danglingPlan.scopes ≤ 1 ∧
    countGlobal (validatePlanScopes danglingPlan "e").1.scopes = 1 ∧
    scopeIdsResolve (validatePlanScopes danglingPlan "e").1 :=
  ⟨by decide,
   (validatePlanScopes_global_and_resolution danglingPlan "e").2.1 (by decide),
   (validatePlanScopes_global_and_resolution danglingPlan "e").2.2⟩

/-- Inserting one element grows the sorted list by one. -/
theorem length_jsInsert {α : Type} (le : α → α → Bool) (x : α) (l : List α) :
    (jsInsert le x l).length = l.length + 1 := by
  induction l with
  | nil => rfl
  | cons y ys ih =>
    simp only [jsInsert]
    split <;> simp [ih]

/-- The stable sort keeps the length. -/
theorem length_jsSortBy {α : Type} (le : α → α → Bool) (l : List α) :
    (jsSortBy le l).length = l.length := by
  suffices h : ∀ acc : List α,
      (l.foldl (fun acc x => jsInsert le x acc) acc).length
        = acc.length + l.length by
    simpa using h []
  induction l with
  | nil => simp
  | cons x xs ih =>
    intro acc
    simp only [List.foldl_cons, ih, length_jsInsert, List.length_cons]
    omega

/-- Membership through one insertion. -/
theorem mem_jsInsert {α : Type} (le : α → α → Bool) (x a : α) (l : List α) :
    a ∈ jsInsert le x l ↔ a = x ∨ a ∈ l := by
  induction l with
  | nil => simp [jsInsert]
  | cons y ys ih =>
    simp only [jsInsert]
    split <;> simp [ih] <;> tauto

/-- The stable sort keeps the members. -/
theorem mem_jsSortBy {α : Type} (le : α → α → Bool) (l : List α) (a : α) :
    a ∈ jsSortBy le l ↔ a ∈ l := by
  suffices h : ∀ acc : List α,
      a ∈ l.foldl (fun acc x => jsInsert le x acc) acc ↔ a ∈ acc ∨ a ∈ l by
    simpa using h []
  induction l with
  | nil => simp
  | cons x xs ih =>
    intro acc
    simp only [List.foldl_cons, ih, mem_jsInsert, List.mem_cons]
    tauto

/-- Inserting into a sorted list keeps it sorted (for a total, transitive
Boolean order). -/
theorem pairwise_jsInsert {α : Type} (le : α → α → Bool)
    (htot : ∀ a b, le a b ∨ le b a)
    (htrans : ∀ a b c, le a b → le b c → le a c) (x : α) (l : List α)
    (hl : l.Pairwise (fun a b => le a b = true)) :
    (jsInsert le x l).Pairwise (fun a b => le a b = true) := by
  induction l with
  | nil => simp [jsInsert]
  | cons y ys ih =>
    rcases List.pairwise_cons.mp hl with ⟨hy, hys⟩
    simp only [jsInsert]
    by_cases hle : le y x
    · rw [if_pos hle]
      refine List.pairwise_cons.mpr ⟨?_, ih hys⟩
      intro b hb
      rcases (mem_jsInsert le x b ys).mp hb with rfl | hb2
      · exact hle
      · exact hy b hb2
    · rw [if_neg hle]
      have hxy : le x y := by
        rcases htot x y with h | h
        · exact h
        · exact absurd h hle
      refine List.pairwise_cons.mpr ⟨?_, hl⟩
      intro b hb
      rcases List.mem_cons.mp hb with rfl | hb2
      · exact hxy
      · exact htrans x y b hxy (hy b hb2)

/-- The stable sort returns a sorted list (for a total, transitive Boolean
order). -/
theorem pairwise_jsSortBy {α : Type} (le : α → α → Bool)
    (htot : ∀ a b, le a b ∨ le b a)
    (htrans : ∀ a b c, le a b → le b c → le a c) (l : List α) :
    (jsSortBy le l).Pairwise (fun a b => le a b = true) := by
  suffices h : ∀ acc : List α, acc.Pairwise (fun a b => le a b = true) →
      (l.foldl (fun acc x => jsInsert le x acc) acc).Pairwise
        (fun a b => le a b = true) by
    exact h [] (by simp)
  induction l with
  | nil => intro acc hacc; simpa using hacc
  | cons x xs ih =>
    intro acc hacc
    exact ih _ (pairwise_jsInsert le htot htrans x acc hacc)

/-- A `groupByKey` run over elements that all share one key yields the
single group holding them all, in order. -/
theorem groupByKey_const {β : Type} (keyOf : β → String) (k : String)
    (l : List β) (hk : ∀ x ∈ l, keyOf x = k) (hne : l ≠ []) :
    groupByKey keyOf l = [(k, l)] := by
  have haux : ∀ (m : List β) (pre : List β), (∀ x ∈ m, keyOf x = k) →
      m.foldl (fun acc v => insertGroup (keyOf v) v acc) [(k, pre)]
        = [(k, pre ++ m)] := by
    intro m
    induction m with
    | nil => simp
    | cons x xs ih =>
      intro pre hm
      have hx : keyOf x = k := hm x (by simp)
      have hins : insertGroup (keyOf x) x [(k, pre)] = [(k, pre ++ [x])] := by
        simp [insertGroup, hx]
      simp only [List.foldl_cons, hins]
      rw [ih (pre ++ [x]) (fun y hy => hm y (by simp [hy]))]
      simp
  match l, hne with
  | x :: xs, _ =>
    have hx : keyOf x = k := hk x (by simp)
    have hins0 : insertGroup (keyOf x) x [] = [(k, [x])] := by
      simp [insertGroup, hx]
    unfold groupByKey
    simp only [List.foldl_cons, hins0]
    rw [haux xs [x] (fun y hy => hk y (by simp [hy]))]
    simp

/-- Unfolding: a batch of size one (the take is empty) passes the head
chunk through. -/
theorem mergeFileChunks_cons_pass (env f : String) (c : CodeChunk)
    (cs : List CodeChunk) (n : Nat) (htail : cs.take n = []) :
    mergeFileChunks env (n + 1) f (c :: cs)
      = (c :: (mergeFileChunks env (n + 1) f cs).1,
         (mergeFileChunks env (n + 1) f cs).2) := by
  conv_lhs => rw [mergeFileChunks]
  simp [htail]

/-- Unfolding: a batch of two or more chunks becomes one Summary chunk and
the loop continues after the batch. -/
theorem mergeFileChunks_cons_merge (env f : String) (c : CodeChunk)
    (cs : List CodeChunk) (n : Nat) (htail : cs.take n ≠ []) :
    (mergeFileChunks env (n + 1) f (c :: cs)).1
      = mkSummaryChunk env f c (c :: cs.take n)
          :: (mergeFileChunks env (n + 1) f (cs.drop n)).1 := by
  conv_lhs => rw [mergeFileChunks]
  simp [htail]

/-- One merge pass over a file group of `m` chunks returns exactly
`⌈m / N⌉` chunks: full batches of `N` collapse to one Summary each, a
trailing singleton passes through. -/
theorem mergeFileChunks_length (env : String) :
    ∀ (N : Nat) (f : String) (l : List CodeChunk), 1 ≤ N →
      (mergeFileChunks env N f l).1.length = (l.length + N - 1) / N := by
  intro N f l
  induction N, f, l using mergeFileChunks.induct env with
  | case1 N f =>
    intro hN
    simp only [mergeFileChunks, List.length_nil]
    rw [Nat.div_eq_of_lt (by omega)]
  | case2 f c cs =>
    intro hN
    omega
  | case3 f c cs n tl htl ih =>
    intro _
    have ih2 := ih (by omega)
    rw [mergeFileChunks_cons_pass env f c cs n htl]
    rcases List.take_eq_nil_iff.mp htl with hn | hcs
    · subst hn
      simp only [List.length_cons, ih2]
      simp
    · subst hcs
      simp only [List.length_cons, ih2]
      simp [Nat.div_self, Nat.div_eq_of_lt (Nat.lt_succ_self _)]
  | case4 f c cs n tl htl ih =>
    intro _
    have ih2 := ih (by omega)
    rw [mergeFileChunks_cons_merge env f c cs n htl]
    simp only [List.length_cons, ih2, List.length_drop]
    have h2 : cs.length + 1 + (n + 1) - 1 = cs.length + (n + 1) := by omega
    rw [h2, Nat.add_div_right _ (Nat.succ_pos n)]
    by_cases hlen : n ≤ cs.length
    · have h1 : cs.length - n + (n + 1) - 1 = cs.length := by omega
      rw [h1]
    · have h1 : cs.length - n + (n + 1) - 1 = n := by omega
      rw [h1, Nat.div_eq_of_lt (by omega), Nat.div_eq_of_lt (by omega)]

/-- When every chunk shares one file path and the count limit is exceeded,
applyDechunking is exactly the merge loop over the sorted group. -/
theorem applyDechunking_singleFile (env f : String) (cs : List CodeChunk)
    (opts : ChunkingOptions) (hf : ∀ c ∈ cs, c.filePath = f)
    (hover : opts.maxChunksPerStep < cs.length) :
    applyDechunking env cs opts =
      mergeFileChunks env opts.maxChunksPerStep f
        (jsSortBy (fun a b => a.startLine ≤ b.startLine) cs) := by
  unfold applyDechunking
  rw [if_neg (by omega)]
  have hne : cs ≠ [] := by
    intro h
    subst h
    simp at hover
  rw [groupByKey_const _ f cs hf hne]
  simp

/-- Every element of a group after one insertion is the inserted value or
was in a group already. -/
theorem insertGroup_mem {β : Type} (key : String) (v : β)
    (gs : List (String × List β)) :
    ∀ g ∈ insertGroup key v gs, ∀ x ∈ g.2,
      x = v ∨ ∃ g2 ∈ gs, x ∈ g2.2 := by
  induction gs with
  | nil =>
    intro g hg x hx
    simp only [insertGroup, List.mem_singleton] at hg
    subst hg
    simp at hx
    exact Or.inl hx
  | cons p rest ih =>
    intro g hg x hx
    simp only [insertGroup] at hg
    by_cases hk : p.1 = key
    · rw [if_pos hk] at hg
      rcases List.mem_cons.mp hg with rfl | hg2
      · rcases List.mem_append.mp hx with h | h
        · exact Or.inr ⟨p, by simp, h⟩
        · simp at h
          exact Or.inl h
      · exact Or.inr ⟨g, by simp [hg2], hx⟩
    · rw [if_neg hk] at hg
      rcases List.mem_cons.mp hg with rfl | hg2
      · exact Or.inr ⟨p, by simp, hx⟩
      · rcases ih g hg2 x hx with h | ⟨g2, hg2m, hx2⟩
        · exact Or.inl h
        · exact Or.inr ⟨g2, by simp [hg2m], hx2⟩

/-- Every chunk sitting in some group of `groupByKey` came from the input
list. -/
theorem groupByKey_mem {β : Type} (keyOf : β → String) (l : List β) :
    ∀ g ∈ groupByKey keyOf l, ∀ x ∈ g.2, x ∈ l := by
  have haux : ∀ (m : List β) (acc : List (String × List β)),
      ∀ g ∈ m.foldl (fun acc v => insertGroup (keyOf v) v acc) acc,
      ∀ x ∈ g.2, (∃ g2 ∈ acc, x ∈ g2.2) ∨ x ∈ m := by
    intro m
    induction m with
    | nil =>
      intro acc g hg x hx
      exact Or.inl ⟨g, hg, hx⟩
    | cons y ys ih =>
      intro acc g hg x hx
      simp only [List.foldl_cons] at hg
      rcases ih _ g hg x hx with ⟨g2, hg2, hx2⟩ | h
      · rcases insertGroup_mem (keyOf y) y acc g2 hg2 x hx2 with rfl | ⟨g3, hg3, hx3⟩
        · exact Or.inr (by simp)
        · exact Or.inl ⟨g3, hg3, hx3⟩
      · exact Or.inr (by simp [h])
  intro g hg x hx
  rcases haux l [] g hg x hx with ⟨g2, hg2, _⟩ | h
  · simp at hg2
  · exact h

/-- Every chunk the merge loop emits is an input chunk passed through, or a
Summary chunk carrying the non-empty id list of its batch. -/
theorem mergeFileChunks_mem (env : String) :
    ∀ (N : Nat) (f : String) (l : List CodeChunk) (c : CodeChunk),
      c ∈ (mergeFileChunks env N f l).1 →
      c ∈ l ∨ (c.type = ChunkType.Summary ∧
        ∃ ids, c.metadata.mergedFrom = some ids ∧ ids ≠ []) := by
  intro N f l
  induction N, f, l using mergeFileChunks.induct env with
  | case1 N f =>
    intro c hc
    simp [mergeFileChunks] at hc
  | case2 f c0 cs =>
    intro c hc
    simp [mergeFileChunks] at hc
  | case3 f c0 cs n tl htl ih =>
    intro c hc
    rw [mergeFileChunks_cons_pass env f c0 cs n htl] at hc
    rcases List.mem_cons.mp hc with rfl | hc2
    · exact Or.inl (by simp)
    · rcases ih c hc2 with h | h
      · exact Or.inl (List.mem_cons_of_mem _ h)
      · exact Or.inr h
  | case4 f c0 cs n tl htl ih =>
    intro c hc
    rw [mergeFileChunks_cons_merge env f c0 cs n htl] at hc
    rcases List.mem_cons.mp hc with rfl | hc2
    · exact Or.inr ⟨rfl, _, rfl, by simp⟩
    · rcases ih c hc2 with h | h
      · exact Or.inl (List.mem_cons_of_mem _ (List.mem_of_mem_drop h))
      · exact Or.inr h

/-- Membership in the fold that concatenates the per-file merge results. -/
theorem applyDechunking_mem (env : String) (cs : List CodeChunk)
    (opts : ChunkingOptions) (c : CodeChunk)
    (hc : c ∈ (applyDechunking env cs opts).1) :
    c ∈ cs ∨ (c.type = ChunkType.Summary ∧
      ∃ ids, c.metadata.mergedFrom = some ids ∧ ids ≠ []) := by
  unfold applyDechunking at hc
  by_cases hlen : cs.length ≤ opts.maxChunksPerStep
  · rw [if_pos hlen] at hc
    exact Or.inl hc
  · rw [if_neg hlen] at hc
    have haux : ∀ (groups : List (String × List CodeChunk))
        (acc : List CodeChunk × List String),
        (∀ g ∈ groups, ∀ x ∈ g.2, x ∈ cs) →
        c ∈ (groups.foldl (fun acc g =>
          (acc.1 ++ (mergeFileChunks env opts.maxChunksPerStep g.1
            (jsSortBy (fun a b => a.startLine ≤ b.startLine) g.2)).1,
           acc.2 ++ (mergeFileChunks env opts.maxChunksPerStep g.1
            (jsSortBy (fun a b => a.startLine ≤ b.startLine) g.2)).2)) acc).1 →
        c ∈ acc.1 ∨ c ∈ cs ∨ (c.type = ChunkType.Summary ∧
          ∃ ids, c.metadata.mergedFrom = some ids ∧ ids ≠ []) := by
      intro groups
      induction groups with
      | nil =>
        intro acc _ hmem
        exact Or.inl hmem
      | cons g rest ih =>
        intro acc hgs hmem
        simp only [List.foldl_cons] at hmem
        rcases ih _ (fun g2 hg2 x hx => hgs g2 (by simp [hg2]) x hx) hmem with
          h | h | h
        · rcases List.mem_append.mp h with h2 | h2
          · exact Or.inl h2
          · rcases mergeFileChunks_mem env _ _ _ c h2 with h3 | h3
            · have := (mem_jsSortBy (fun a b => a.startLine ≤ b.startLine)
                g.2 c).mp h3
              exact Or.inr (Or.inl (hgs g (by simp) c this))
            · exact Or.inr (Or.inr h3)
        · exact Or.inr (Or.inl h)
        · exact Or.inr (Or.inr h)
    rcases haux (groupByKey (fun c => c.filePath) cs) ([], [])
        (groupByKey_mem _ cs) hc with h | h | h
    · simp at h
    · exact Or.inl h
    · exact Or.inr h

/-- C3, counterexample: one pass of applyDechunking does NOT cap a per-file
group at `N` chunks — 5 same-file chunks with `maxChunksPerStep = 2` merge
into batches of 2, 2, 1, leaving 3 chunks (> 2 = N; the claim asserts at
most N for every N ≥ 1). -/
theorem applyDechunking_perFile_cap_counterexample :
    (∀ c ∈ fiveChunks, c.filePath = "a.ts") ∧
    (optsNM 2 100).maxChunksPerStep = 2 ∧
    ¬ ((applyDechunking "e" fiveChunks (optsNM 2 100)).1.length ≤ 2) := by
  refine ⟨by decide, rfl, ?_⟩
  rw [applyDechunking_singleFile "e" "a.ts" fiveChunks (optsNM 2 100)
    (by decide) (by decide)]
  have hlen := mergeFileChunks_length "e" (optsNM 2 100).maxChunksPerStep
    "a.ts" (jsSortBy (fun a b => a.startLine ≤ b.startLine) fiveChunks)
    (by decide)
  rw [length_jsSortBy] at hlen
  rw [hlen]
  decide

/-- C3 as amended: one applyDechunking pass leaves a same-file group of `m`
chunks with exactly `⌈m / N⌉` chunks — at most `N` only when `m ≤ N²`; for
10 same-file chunks with `N = 5` the result has 2 ≤ 5 chunks; and whenever
no input chunk is itself a Summary, every output Summary chunk carries a
non-empty `mergedFrom` id list. -/
theorem applyDechunking_perFile_count_and_summary :
    (∀ (env f : String) (N : Nat) (opts : ChunkingOptions)
        (cs : List CodeChunk),
        1 ≤ N → opts.maxChunksPerStep = N → (∀ c ∈ cs, c.filePath = f) →
        N < cs.length →
        (applyDechunking env cs opts).1.length = (cs.length + N - 1) / N ∧
        (cs.length ≤ N * N → (applyDechunking env cs opts).1.length ≤ N)) ∧
    (∀ (env : String) (opts : ChunkingOptions) (cs : List CodeChunk)
        (c : CodeChunk),
        (∀ c2 ∈ cs, c2.type ≠ ChunkType.Summary) →
        c ∈ (applyDechunking env cs opts).1 → c.type = ChunkType.Summary →
        ∃ ids, c.metadata.mergedFrom = some ids ∧ ids ≠ []) ∧
    (applyDechunking "e" tenChunks (optsNM 5 100)).1.length = 2 := by
  refine ⟨?_, ?_, ?_⟩
  · intro env f N opts cs hN hopt hf hover
    have hN2 : 1 ≤ opts.maxChunksPerStep := by omega
    rw [applyDechunking_singleFile env f cs opts hf (by omega)]
    have hlen := mergeFileChunks_length env opts.maxChunksPerStep f
      (jsSortBy (fun a b => a.startLine ≤ b.startLine) cs) hN2
    rw [length_jsSortBy] at hlen
    rw [hlen, hopt]
    constructor
    · rfl
    · intro hsq
      have he : (N + 1) * N = N * N + N := by ring
      have hlt : cs.length + N - 1 < (N + 1) * N := by omega
      have := (Nat.div_lt_iff_lt_mul (by omega : 0 < N)).mpr hlt
      omega
  · intro env opts cs c hns hc hcs
    rcases applyDechunking_mem env cs opts c hc with h | h
    · exact absurd hcs (hns c h)
    · exact h.2
  · rw [applyDechunking_singleFile "e" "a.ts" tenChunks (optsNM 5 100)
      (by decide) (by decide)]
    have hlen := mergeFileChunks_length "e" (optsNM 5 100).maxChunksPerStep
      "a.ts" (jsSortBy (fun a b => a.startLine ≤ b.startLine) tenChunks)
      (by decide)
    rw [length_jsSortBy] at hlen
    rw [hlen]
    decide

/-- Closed witness for the amended per-file count: 5 same-file chunks at
`N = 2` yield `⌈5/2⌉ = 3` chunks, derived through the theorem itself. -/
theorem applyDechunking_perFile_count_and_summary_witness :
    (applyDechunking "e2" fiveChunks (optsNM 2 100)).1.length = (5 + 2 - 1) / 2 :=
  (applyDechunking_perFile_count_and_summary.1 "e2" "a.ts" 2 (optsNM 2 100)
    fiveChunks (by decide) rfl (by decide) (by decide)).1

/-- The minimum of an ascending list is its head. -/
theorem min?_pairwise_le (xs : List Int)
    (h : xs.Pairwise (fun a b => a ≤ b)) : xs.min? = xs.head? := by
  cases xs with
  | nil => rfl
  | cons x t =>
    have hx : ∀ z ∈ t, x ≤ z := fun z hz => (List.pairwise_cons.mp h).1 z hz
    show some (t.foldl min x) = some x
    congr 1
    clear h
    induction t generalizing x with
    | nil => rfl
    | cons y t2 ih =>
      simp only [List.foldl_cons]
      rw [min_eq_left (hx y (by simp))]
      exact ih x (fun z hz => hx z (by simp [hz]))

/-- The maximum of an ascending list is its last element. -/
theorem max?_pairwise_le (xs : List Int)
    (h : xs.Pairwise (fun a b => a ≤ b)) : xs.max? = xs.getLast? := by
  cases xs with
  | nil => rfl
  | cons x t =>
    show some (t.foldl max x) = (x :: t).getLast?
    induction t generalizing x with
    | nil => rfl
    | cons y t2 ih =>
      have hxy : x ≤ y := (List.pairwise_cons.mp h).1 y (by simp)
      simp only [List.foldl_cons]
      rw [max_eq_right hxy, List.getLast?_cons_cons]
      exact ih y (List.pairwise_cons.mp h).2

/-- Every Summary chunk the merge loop emits (over inputs that are not
themselves Summary chunks) lists a non-empty subset of the input ids as its
contributors. -/
theorem mergeFileChunks_summary_ids (env : String) :
    ∀ (N : Nat) (f : String) (l : List CodeChunk),
      (∀ x ∈ l, x.type ≠ ChunkType.Summary) →
      ∀ c ∈ (mergeFileChunks env N f l).1, c.type = ChunkType.Summary →
        ∃ ids, c.metadata.mergedFrom = some ids ∧ ids ≠ [] ∧
          ids ⊆ l.map (fun x => x.id) := by
  intro N f l
  induction N, f, l using mergeFileChunks.induct env with
  | case1 N f =>
    intro _ c hc
    simp [mergeFileChunks] at hc
  | case2 f c0 cs =>
    intro _ c hc
    simp [mergeFileChunks] at hc
  | case3 f c0 cs n tl htl ih =>
    intro hns c hc hcs
    rw [mergeFileChunks_cons_pass env f c0 cs n htl] at hc
    rcases List.mem_cons.mp hc with rfl | hc2
    · exact absurd hcs (hns c (by simp))
    · obtain ⟨ids, h1, h2, h3⟩ := ih (fun x hx => hns x (by simp [hx])) c hc2 hcs
      exact ⟨ids, h1, h2, fun a ha => by simpa using Or.inr (h3 ha)⟩
  | case4 f c0 cs n tl htl ih =>
    intro hns c hc hcs
    rw [mergeFileChunks_cons_merge env f c0 cs n htl] at hc
    rcases List.mem_cons.mp hc with rfl | hc2
    · refine ⟨_, rfl, by simp, ?_⟩
      intro a ha
      simp only [List.mem_map] at ha ⊢
      obtain ⟨x, hx, hxa⟩ := ha
      rcases List.mem_cons.mp hx with rfl | hx2
      · exact ⟨x, by simp, hxa⟩
      · exact ⟨x, by simp [List.mem_of_mem_take hx2], hxa⟩
    · obtain ⟨ids, h1, h2, h3⟩ := ih
        (fun x hx => hns x (by simp [List.mem_of_mem_drop hx])) c hc2 hcs
      refine ⟨ids, h1, h2, fun a ha => ?_⟩
      have := h3 ha
      simp only [List.mem_map] at this ⊢
      obtain ⟨x, hx, hxa⟩ := this
      exact ⟨x, by simp [List.mem_of_mem_drop hx], hxa⟩

/-- Chunks whose ids avoid a Summary chunk's contributor list do not change
its contributor span. -/
theorem summarySpanOk_append_left (pre l2 : List CodeChunk) (c : CodeChunk)
    (ids : List String) (hmf : c.metadata.mergedFrom = some ids)
    (hdisj : ∀ x ∈ pre, x.id ∉ ids) :
    summarySpanOk (pre ++ l2) c = summarySpanOk l2 c := by
  have hfilter : (pre ++ l2).filter (fun c2 => decide (c2.id ∈ ids))
      = l2.filter (fun c2 => decide (c2.id ∈ ids)) := by
    rw [List.filter_append]
    rw [List.filter_eq_nil_iff.mpr (fun x hx => by simpa using hdisj x hx)]
    rfl
  simp only [summarySpanOk, hmf, hfilter]

/-- C4 as amended: over a sorted file group with distinct ids, no input
Summary chunks, and endLine nondecreasing along startLine order (no nested
spans), every Summary chunk the merge loop emits has `mergedFrom` = the
non-empty id list of its batch, startLine = the minimum contributor
startLine, and endLine = the maximum contributor endLine. (Without the
no-nesting hypothesis the endLine is that of the last contributor in
startLine order, not the maximum — see the counterexample.) -/
theorem mergeFileChunks_summary_span (env : String) :
    ∀ (N : Nat) (f : String) (l : List CodeChunk),
      (l.map (fun c => c.id)).Nodup →
      l.Pairwise (fun a b => a.startLine ≤ b.startLine) →
      l.Pairwise (fun a b => a.endLine ≤ b.endLine) →
      (∀ x ∈ l, x.type ≠ ChunkType.Summary) →
      ∀ c ∈ (mergeFileChunks env N f l).1, c.type = ChunkType.Summary →
        summarySpanOk l c = true := by
  intro N f l
  induction N, f, l using mergeFileChunks.induct env with
  | case1 N f =>
    intro _ _ _ _ c hc
    simp [mergeFileChunks] at hc
  | case2 f c0 cs =>
    intro _ _ _ _ c hc
    simp [mergeFileChunks] at hc
  | case3 f c0 cs n tl htl ih =>
    intro hnd hps hpe hns c hc hcs
    rw [List.map_cons, List.nodup_cons] at hnd
    rw [mergeFileChunks_cons_pass env f c0 cs n htl] at hc
    rcases List.mem_cons.mp hc with rfl | hc2
    · exact absurd hcs (hns c (by simp))
    · have hrec := ih hnd.2 (List.pairwise_cons.mp hps).2
        (List.pairwise_cons.mp hpe).2
        (fun x hx => hns x (by simp [hx])) c hc2 hcs
      obtain ⟨ids, h1, _h2, h3⟩ := mergeFileChunks_summary_ids env (n + 1) f cs
        (fun x hx => hns x (by simp [hx])) c hc2 hcs
      have hc0 : c0.id ∉ ids := fun hin => hnd.1 (h3 hin)
      calc summarySpanOk (c0 :: cs) c
          = summarySpanOk ([c0] ++ cs) c := by rfl
        _ = summarySpanOk cs c := by
            refine summarySpanOk_append_left [c0] cs c ids h1 ?_
            intro x hx
            simp only [List.mem_singleton] at hx
            subst hx
            exact hc0
        _ = true := hrec
  | case4 f c0 cs n tl htl ih =>
    intro hnd hps hpe hns c hc hcs
    have hl : c0 :: cs = (c0 :: cs.take n) ++ cs.drop n := by
      rw [List.cons_append, List.take_append_drop]
    have hndsplit : ((c0 :: cs.take n).map (fun x => x.id)).Nodup ∧
        ((cs.drop n).map (fun x => x.id)).Nodup ∧
        ∀ a ∈ (c0 :: cs.take n).map (fun x => x.id),
          a ∉ (cs.drop n).map (fun x => x.id) := by
      have hnd2 := hnd
      rw [hl, List.map_append] at hnd2
      have h := List.nodup_append.mp hnd2
      exact ⟨h.1, h.2.1, fun a ha => h.2.2 ha⟩
    rw [mergeFileChunks_cons_merge env f c0 cs n htl] at hc
    rcases List.mem_cons.mp hc with rfl | hc2
    · have hbatch_sub : (c0 :: cs.take n).Sublist (c0 :: cs) :=
        List.Sublist.cons₂ c0 (List.take_sublist n cs)
      have hfilter : (c0 :: cs).filter
          (fun c2 => decide (c2.id ∈ (c0 :: cs.take n).map (fun x => x.id)))
          = c0 :: cs.take n := by
        rw [hl, List.filter_append]
        rw [List.filter_eq_self.mpr (fun x hx => by
          simp only [decide_eq_true_eq]
          exact List.mem_map.mpr ⟨x, hx, rfl⟩)]
        rw [List.filter_eq_nil_iff.mpr (fun x hx => by
          simp only [decide_eq_true_eq]
          intro hin
          exact hndsplit.2.2 _ hin (List.mem_map.mpr ⟨x, hx, rfl⟩))]
        simp
      have hpsb : (c0 :: cs.take n).Pairwise
          (fun a b => a.startLine ≤ b.startLine) := hps.sublist hbatch_sub
      have hpeb : (c0 :: cs.take n).Pairwise
          (fun a b => a.endLine ≤ b.endLine) := hpe.sublist hbatch_sub
      obtain ⟨z, hz⟩ : ∃ z, (c0 :: cs.take n).getLast? = some z := by
        cases h : (c0 :: cs.take n).getLast? with
        | none => simp at h
        | some z => exact ⟨z, rfl⟩
      have hmf : (mkSummaryChunk env f c0 (c0 :: cs.take n)).metadata.mergedFrom
          = some ((c0 :: cs.take n).map (fun x => x.id)) := rfl
      have hmin : ((c0 :: cs.take n).map (fun c2 => c2.startLine)).min?
          = some c0.startLine := by
        rw [min?_pairwise_le _ (List.pairwise_map.mpr hpsb)]
        simp
      have hmax : ((c0 :: cs.take n).map (fun c2 => c2.endLine)).max?
          = some z.endLine := by
        rw [max?_pairwise_le _ (List.pairwise_map.mpr hpeb),
          List.getLast?_map, hz]
        rfl
      have hstart : (mkSummaryChunk env f c0 (c0 :: cs.take n)).startLine
          = c0.startLine := rfl
      have hend : (mkSummaryChunk env f c0 (c0 :: cs.take n)).endLine
          = z.endLine := by
        show ((c0 :: cs.take n).getLast?.getD c0).endLine = z.endLine
        rw [hz]
        rfl
      simp only [summarySpanOk, hmf, hfilter, hmin, hmax, hstart, hend]
      simp
    · have hdropsub : (cs.drop n).Sublist (c0 :: cs) :=
        List.Sublist.cons c0 (List.drop_sublist n cs)
      have hrec := ih hndsplit.2.1
        (hps.sublist hdropsub) (hpe.sublist hdropsub)
        (fun x hx => hns x (by simp [List.mem_of_mem_drop hx])) c hc2 hcs
      obtain ⟨ids, h1, _h2, h3⟩ := mergeFileChunks_summary_ids env (n + 1) f
        (cs.drop n) (fun x hx => hns x (by simp [List.mem_of_mem_drop hx]))
        c hc2 hcs
      calc summarySpanOk (c0 :: cs) c
          = summarySpanOk ((c0 :: cs.take n) ++ cs.drop n) c := by rw [← hl]
        _ = summarySpanOk (cs.drop n) c :=
            summarySpanOk_append_left _ _ c ids h1 (fun x hx hin =>
              hndsplit.2.2 x.id (List.mem_map.mpr ⟨x, hx, rfl⟩) (h3 hin))
        _ = true := hrec

/-- C4, counterexample: with nested same-file spans (1,100), (2,3), (4,5)
and `maxChunksPerStep = 2`, the first batch is [(1,100), (2,3)] (sorted by
startLine), and its Summary chunk spans [1, 3] — the endLine of the LAST
contributor in startLine order — although the maximum contributor endLine
is 100. The claim asserts endLine = max over contributors for every input,
nested spans included. -/
theorem summary_span_max_counterexample :
    ¬ (∀ c ∈ (applyDechunking "e" nestedChunks (optsNM 2 100)).1,
        c.type = ChunkType.Summary → summarySpanOk nestedChunks c = true) := by
  intro h
  have hsort : jsSortBy (fun a b => a.startLine ≤ b.startLine) nestedChunks
      = nestedChunks := by decide
  have hmem : mkSummaryChunk "e" "a.ts" (sampleChunk 1 "a.ts" 1 100)
      (sampleChunk 1 "a.ts" 1 100 ::
        [sampleChunk 2 "a.ts" 2 3, sampleChunk 3 "a.ts" 4 5].take 1)
      ∈ (applyDechunking "e" nestedChunks (optsNM 2 100)).1 := by
    rw [applyDechunking_singleFile "e" "a.ts" nestedChunks (optsNM 2 100)
      (by decide) (by decide), hsort]
    show mkSummaryChunk "e" "a.ts" (sampleChunk 1 "a.ts" 1 100)
        (sampleChunk 1 "a.ts" 1 100 ::
          [sampleChunk 2 "a.ts" 2 3, sampleChunk 3 "a.ts" 4 5].take 1)
      ∈ (mergeFileChunks "e" (1 + 1) "a.ts" (sampleChunk 1 "a.ts" 1 100 ::
          [sampleChunk 2 "a.ts" 2 3, sampleChunk 3 "a.ts" 4 5])).1
    rw [mergeFileChunks_cons_merge "e" "a.ts" (sampleChunk 1 "a.ts" 1 100)
      [sampleChunk 2 "a.ts" 2 3, sampleChunk 3 "a.ts" 4 5] 1 (by decide)]
    exact List.mem_cons_self _ _
  have hval := h _ hmem rfl
  have hfalse : summarySpanOk nestedChunks
      (mkSummaryChunk "e" "a.ts" (sampleChunk 1 "a.ts" 1 100)
        (sampleChunk 1 "a.ts" 1 100 ::
          [sampleChunk 2 "a.ts" 2 3, sampleChunk 3 "a.ts" 4 5].take 1))
      = false := by decide
  rw [hval] at hfalse
  exact Bool.noConfusion hfalse

/-- Closed witness for the amended span claim: the Summary chunk built from
the first batch of the non-nested five-chunk group satisfies the span
property, via the theorem. -/
theorem mergeFileChunks_summary_span_witness :
    summarySpanOk fiveChunks
      (mkSummaryChunk "w" "a.ts" (sampleChunk 1 "a.ts" 1 2)
        (sampleChunk 1 "a.ts" 1 2 ::
          [sampleChunk 2 "a.ts" 3 4, sampleChunk 3 "a.ts" 5 6,
           sampleChunk 4 "a.ts" 7 8, sampleChunk 5 "a.ts" 9 10].take 1))
      = true := by
  have hmem : mkSummaryChunk "w" "a.ts" (sampleChunk 1 "a.ts" 1 2)
      (sampleChunk 1 "a.ts" 1 2 ::
        [sampleChunk 2 "a.ts" 3 4, sampleChunk 3 "a.ts" 5 6,
         sampleChunk 4 "a.ts" 7 8, sampleChunk 5 "a.ts" 9 10].take 1)
      ∈ (mergeFileChunks "w" (1 + 1) "a.ts" (sampleChunk 1 "a.ts" 1 2 ::
          [sampleChunk 2 "a.ts" 3 4, sampleChunk 3 "a.ts" 5 6,
           sampleChunk 4 "a.ts" 7 8, sampleChunk 5 "a.ts" 9 10])).1 := by
    rw [mergeFileChunks_cons_merge "w" "a.ts" (sampleChunk 1 "a.ts" 1 2)
      [sampleChunk 2 "a.ts" 3 4, sampleChunk 3 "a.ts" 5 6,
       sampleChunk 4 "a.ts" 7 8, sampleChunk 5 "a.ts" 9 10] 1 (by decide)]
    exact List.mem_cons_self _ _
  exact mergeFileChunks_summary_span "w" 2 "a.ts" fiveChunks (by decide)
    (by decide) (by decide) (by decide) _ hmem rfl

/-- The phase-limit section keeps at least one phase: a truthy limit is at
least 1 and `take` of that many phases of a non-empty list is non-empty. -/
theorem applyPhaseLimit_phases_ne (plan : TaskPlan) (tmp : Option Nat)
    (hp : plan.phases ≠ []) : (applyPhaseLimit plan tmp).1 ≠ [] := by
  unfold applyPhaseLimit
  split
  · next hcond =>
      rcases hcond with ⟨ht, _hlen⟩
      intro hnil
      rw [List.take_eq_nil_iff] at hnil
      rcases hnil with h | h
      · cases tmp with
        | none => simp [jsTruthyNat] at ht
        | some n =>
          simp [jsTruthyNat] at ht
          simp [Option.getD] at h
          exact ht h
      · exact hp h
  · exact hp

/-- The reinsertion step keeps the phases and — when the phases are
non-empty and the original plan had a step — returns a non-empty step
list. -/
theorem reinsertFirstStep_nonempty (pb al : TaskPlan)
    (hph : al.phases ≠ []) (hpb : pb.steps ≠ []) :
    (reinsertFirstStep pb al).1.phases = al.phases ∧
    (reinsertFirstStep pb al).1.steps ≠ [] := by
  unfold reinsertFirstStep
  split
  · next _firstStep _rest _heq1 _heq2 =>
      rw [if_pos (Or.inr hph)]
      exact ⟨rfl, by simp⟩
  · next h =>
      refine ⟨rfl, ?_⟩
      cases hal : al.steps with
      | nil =>
        cases hpbs : pb.steps with
        | nil => exact absurd hpbs hpb
        | cons f r => exact (h f r hal hpbs).elim
      | cons s t => simp
  
/-- C2: for every plan with at least one phase and one step, validatePlan
returns a plan with at least one phase and one step, for every combination
of the (positive-integer or absent) limits: phase truncation keeps at
least one phase and the step-reinsertion safety net restores a step
whenever the limits dropped them all. -/
theorem validatePlan_nonempty (plan : TaskPlan) (options : ValidatePlanOptions)
    (env : String) (hp : plan.phases ≠ []) (hs : plan.steps ≠ []) :
    (validatePlan plan options env).plan.phases ≠ [] ∧
    (validatePlan plan options env).plan.steps ≠ [] := by
  have hres : (validatePlan plan options env).plan
      = (reinsertFirstStep plan
          (applyGlobalLimits
            (applyDynamicChunking
              (validatePlanScopes (validatePlanLevels plan).1 env).1
              options.maxMicroStepsPerPhase).1
            options.targetMaxPhases options.targetMaxSteps).1).1 := rfl
  have hBphases : (applyDynamicChunking
      (validatePlanScopes (validatePlanLevels plan).1 env).1
      options.maxMicroStepsPerPhase).1.phases = plan.phases := by
    unfold applyDynamicChunking
    split
    · rfl
    · rfl
  have hALphases : (applyGlobalLimits
      (applyDynamicChunking
        (validatePlanScopes (validatePlanLevels plan).1 env).1
        options.maxMicroStepsPerPhase).1
      options.targetMaxPhases options.targetMaxSteps).1.phases ≠ [] := by
    show (applyPhaseLimit _ options.targetMaxPhases).1 ≠ []
    apply applyPhaseLimit_phases_ne
    rw [hBphases]
    exact hp
  have hrein := reinsertFirstStep_nonempty plan _ hALphases hs
  rw [hres]
  refine ⟨?_, hrein.2⟩
  rw [hrein.1]
  exact hALphases

/-- Closed witness: a two-phase plan compressed with all three limits set
to 1 still holds a phase and a step. -/
theorem validatePlan_nonempty_witness :
    (validatePlan danglingPlan
      { targetMaxPhases := some 1, targetMaxSteps := some 1,
        maxMicroStepsPerPhase := some 1 } "w").plan.phases ≠ [] ∧
    (validatePlan danglingPlan
      { targetMaxPhases := some 1, targetMaxSteps := some 1,
        maxMicroStepsPerPhase := some 1 } "w").plan.steps ≠ [] :=
  validatePlan_nonempty danglingPlan
    { targetMaxPhases := some 1, targetMaxSteps := some 1,
      maxMicroStepsPerPhase := some 1 } "w" (by decide) (by decide)

/-- Level correction never touches a step's id or dependencies. -/
theorem validatePlanLevels_pairs (p : TaskPlan) :
    depsPairsOf (validatePlanLevels p).1 = depsPairsOf p := by
  unfold depsPairsOf validatePlanLevels
  simp only [List.map_map]
  refine List.map_congr_left ?_
  intro s _
  show ((correctStepLevel p.phases s).1.id,
      (correctStepLevel p.phases s).1.dependencies) = (s.id, s.dependencies)
  unfold correctStepLevel
  split
  · rfl
  · split
    · rfl
    · rfl

/-- Scope repair never touches a step's id or dependencies. -/
theorem validatePlanScopes_pairs (p : TaskPlan) (env : String) :
    depsPairsOf (validatePlanScopes p env).1 = depsPairsOf p := by
  unfold depsPairsOf validatePlanScopes
  simp only [List.map_map]
  refine List.map_congr_left ?_
  intro s _
  simp only [Function.comp_apply]
  cases hsc : s.scopeId with
  | none => simp [hsc]
  | some sid =>
    simp only [hsc]
    split
    · rfl
    · rfl

/-- C1, counterexample: danglingPlan is schema-valid, yet validatePlan with
`targetMaxPhases = 1` drops phase p2 and its step s2 while the kept step s1
retains its dependency on s2 — a dangling edge (phase truncation never
rewrites dependency lists). -/
theorem dependency_integrity_counterexample :
    validTaskPlanB danglingPlan = true ∧
    ¬ noDanglingDeps ((validatePlan danglingPlan
        { targetMaxPhases := some 1 } "e").plan) := by
  constructor
  · decide
  · decide

/-- C1 as amended: when validatePlan is invoked without limits, the output
plan's dependency graph (step ids with their dependency lists) equals the
input's, so freedom from dangling edges and acyclicity of the dependency
relation restricted to present ids carry over unchanged. (With limits,
truncation can drop a step that a step of another phase depends on — see
the counterexample.) -/
theorem validatePlan_noLimits_dependency_integrity (plan : TaskPlan)
    (env : String) :
    depsPairsOf ((validatePlan plan {} env).plan) = depsPairsOf plan ∧
    (graphNoDangling (depsPairsOf ((validatePlan plan {} env).plan)) ↔
      graphNoDangling (depsPairsOf plan)) ∧
    (graphAcyclic (depsPairsOf ((validatePlan plan {} env).plan)) ↔
      graphAcyclic (depsPairsOf plan)) := by
  have hres : (validatePlan plan {} env).plan
      = (reinsertFirstStep plan
          (validatePlanScopes (validatePlanLevels plan).1 env).1).1 := rfl
  have hP2 : depsPairsOf (validatePlanScopes (validatePlanLevels plan).1 env).1
      = depsPairsOf plan := by
    rw [validatePlanScopes_pairs, validatePlanLevels_pairs]
  have hrein : (reinsertFirstStep plan
      (validatePlanScopes (validatePlanLevels plan).1 env).1).1
      = (validatePlanScopes (validatePlanLevels plan).1 env).1 := by
    unfold reinsertFirstStep
    split
    · next f rest h1 h2 =>
        exfalso
        have hcount := congrArg List.length hP2
        unfold depsPairsOf at hcount
        rw [h1, h2] at hcount
        simp at hcount
    · rfl
  have hmain : depsPairsOf ((validatePlan plan {} env).plan) = depsPairsOf plan := by
    rw [hres, hrein, hP2]
  exact ⟨hmain, by rw [hmain], by rw [hmain]⟩

/-- The window loop of chunkByFileRange is deterministic modulo the drawn
id text: erasing ids makes its output independent of the draw. -/
theorem fileRangeWindows_eraseIds (f : String) (maxL : Nat) (endLine : Int)
    (e1 e2 : String) :
    ∀ (n : Nat) (cs : Int) (idx : Nat), (endLine + 1 - cs).toNat = n →
      (fileRangeWindows e1 f maxL endLine cs idx).map eraseChunkId
        = (fileRangeWindows e2 f maxL endLine cs idx).map eraseChunkId := by
  intro n
  induction n using Nat.strong_induction_on with
  | _ n ih =>
    intro cs idx hn
    unfold fileRangeWindows
    by_cases h : cs ≤ endLine
    · rw [dif_pos h, dif_pos h]
      match maxL with
      | 0 => rfl
      | m + 1 =>
        simp only [List.map_cons, List.cons.injEq]
        refine ⟨rfl, ?_⟩
        refine ih (endLine + 1 - (min (cs + m) endLine + 1)).toNat ?_ _ _ rfl
        rw [← hn]
        rcases le_total (cs + (m : Int)) endLine with h2 | h2
        · rw [min_eq_left h2]
          omega
        · rw [min_eq_right h2]
          omega
    · rw [dif_neg h, dif_neg h]

/-- chunkByFileRange is deterministic modulo the drawn id text. -/
theorem chunkByFileRange_eraseIds (e1 e2 f : String) (a b : Int)
    (opts : ChunkingOptions) :
    (chunkByFileRange e1 f a b opts).map eraseChunkId
      = (chunkByFileRange e2 f a b opts).map eraseChunkId := by
  unfold chunkByFileRange
  by_cases h : b - a + 1 ≤ (opts.maxLinesPerChunk : Int)
  · rw [if_pos h, if_pos h]
    rfl
  · rw [if_neg h, if_neg h]
    exact fileRangeWindows_eraseIds f opts.maxLinesPerChunk b e1 e2 _ a 0 rfl

/-- The symbol window loop is deterministic modulo the drawn id text, and
the chunk index it returns does not depend on the draw. -/
theorem symbolWindows_eraseIds (f sn sk : String) (blocks : List BlockInfo)
    (lines : List String) (startLine : Int) (inc : Bool) (maxL : Nat)
    (chunkEnd : Int) (e1 e2 : String) :
    ∀ (n : Nat) (cs : Int) (idx : Nat), (chunkEnd + 1 - cs).toNat = n →
      (symbolWindows e1 f sn sk blocks lines startLine inc maxL chunkEnd
          cs idx).1.map eraseChunkId
        = (symbolWindows e2 f sn sk blocks lines startLine inc maxL chunkEnd
            cs idx).1.map eraseChunkId ∧
      (symbolWindows e1 f sn sk blocks lines startLine inc maxL chunkEnd
          cs idx).2
        = (symbolWindows e2 f sn sk blocks lines startLine inc maxL chunkEnd
            cs idx).2 := by
  intro n
  induction n using Nat.strong_induction_on with
  | _ n ih =>
    intro cs idx hn
    unfold symbolWindows
    by_cases h : cs ≤ chunkEnd
    · rw [dif_pos h, dif_pos h]
      match maxL with
      | 0 => exact ⟨rfl, rfl⟩
      | m + 1 =>
        have hrec := ih (chunkEnd + 1 - (min (cs + m) chunkEnd + 1)).toNat
          (by
            rw [← hn]
            rcases le_total (cs + (m : Int)) chunkEnd with h2 | h2
            · rw [min_eq_left h2]
              omega
            · rw [min_eq_right h2]
              omega)
          (min (cs + m) chunkEnd + 1) (idx + 1) rfl
        constructor
        · simp only [List.map_cons, List.cons.injEq]
          exact ⟨rfl, hrec.1⟩
        · exact hrec.2
    · rw [dif_neg h, dif_neg h]
      exact ⟨rfl, rfl⟩

/-- The boundary-pair walk of chunkLargeSymbol is deterministic modulo the
drawn id text. -/
theorem subChunksGo_eraseIds (f sn sk : String) (blocks : List BlockInfo)
    (lines : List String) (startLine : Int) (inc : Bool) (maxL : Nat)
    (e1 e2 : String) :
    ∀ (bs : List Int) (idx : Nat),
      (subChunksGo e1 f sn sk blocks lines startLine inc maxL bs idx).map
          eraseChunkId
        = (subChunksGo e2 f sn sk blocks lines startLine inc maxL bs idx).map
            eraseChunkId := by
  intro bs
  induction bs with
  | nil => intro idx; rfl
  | cons b1 rest ih =>
    intro idx
    match rest with
    | [] => rfl
    | b2 :: rest2 =>
      unfold subChunksGo
      by_cases hskip : b2 - b1 + 1 < 5 ∧ rest2 ≠ []
      · rw [if_pos hskip, if_pos hskip]
        exact ih idx
      · rw [if_neg hskip, if_neg hskip]
        by_cases hbig : b2 - b1 + 1 > (maxL : Int)
        · rw [if_pos hbig, if_pos hbig]
          have hw := symbolWindows_eraseIds f sn sk blocks lines startLine inc
            maxL b2 e1 e2 _ b1 idx rfl
          rw [List.map_append, List.map_append, hw.1, hw.2]
          rw [ih _]
        · rw [if_neg hbig, if_neg hbig]
          simp only [List.map_cons, List.cons.injEq]
          exact ⟨rfl, ih _⟩

/-- chunkLargeSymbol is deterministic modulo the drawn id text. -/
theorem chunkLargeSymbol_eraseIds (e1 e2 f sn sk : String)
    (startLine endLine : Int) (code : String) (blocks : List BlockInfo)
    (comments : List Int) (opts : ChunkingOptions) :
    (chunkLargeSymbol e1 f sn sk startLine endLine code blocks comments
        opts).map eraseChunkId
      = (chunkLargeSymbol e2 f sn sk startLine endLine code blocks comments
          opts).map eraseChunkId := by
  unfold chunkLargeSymbol
  exact subChunksGo_eraseIds f sn sk blocks _ startLine opts.includeContent
    opts.maxLinesPerChunk e1 e2 _ 0

/-- Unfolding of the merge branch with its warning string. -/
theorem mergeFileChunks_cons_merge_pair (env f : String) (c : CodeChunk)
    (cs : List CodeChunk) (n : Nat) (htail : cs.take n ≠ []) :
    mergeFileChunks env (n + 1) f (c :: cs)
      = (mkSummaryChunk env f c (c :: cs.take n)
           :: (mergeFileChunks env (n + 1) f (cs.drop n)).1,
         ("Merged " ++ toString (c :: cs.take n).length
            ++ " chunks into summary (lines " ++ toString c.startLine ++ "-"
            ++ toString (((c :: cs.take n).getLast?.getD c)).endLine ++ ")")
           :: (mergeFileChunks env (n + 1) f (cs.drop n)).2) := by
  conv_lhs => rw [mergeFileChunks]
  simp [htail]

/-- The per-file merge loop is deterministic modulo the drawn id text, and
its warnings do not depend on the draw. -/
theorem mergeFileChunks_eraseIds (f : String) (N : Nat) (e1 e2 : String) :
    ∀ (n : Nat) (l : List CodeChunk), l.length = n →
      (mergeFileChunks e1 N f l).1.map eraseChunkId
        = (mergeFileChunks e2 N f l).1.map eraseChunkId ∧
      (mergeFileChunks e1 N f l).2 = (mergeFileChunks e2 N f l).2 := by
  intro n
  induction n using Nat.strong_induction_on with
  | _ n ih =>
    intro l hl
    match l with
    | [] => exact ⟨by simp [mergeFileChunks], by simp [mergeFileChunks]⟩
    | c :: cs =>
      match N with
      | 0 => exact ⟨by simp [mergeFileChunks], by simp [mergeFileChunks]⟩
      | m + 1 =>
        by_cases htail : cs.take m = []
        · rw [mergeFileChunks_cons_pass e1 f c cs m htail,
            mergeFileChunks_cons_pass e2 f c cs m htail]
          have hrec := ih cs.length (by simp at hl; omega) cs rfl
          constructor
          · simp only [List.map_cons, List.cons.injEq]
            exact ⟨trivial, hrec.1⟩
          · exact hrec.2
        · rw [mergeFileChunks_cons_merge_pair e1 f c cs m htail,
            mergeFileChunks_cons_merge_pair e2 f c cs m htail]
          have hrec := ih (cs.drop m).length
            (by simp only [List.length_drop]; simp at hl; omega)
            (cs.drop m) rfl
          constructor
          · simp only [List.map_cons, List.cons.injEq]
            exact ⟨rfl, hrec.1⟩
          · simp only [List.cons.injEq]
            exact ⟨trivial, hrec.2⟩

/-- applyDechunking is deterministic modulo the drawn id text, and its
warnings do not depend on the draw. -/
theorem applyDechunking_eraseIds (e1 e2 : String) (cs : List CodeChunk)
    (opts : ChunkingOptions) :
    (applyDechunking e1 cs opts).1.map eraseChunkId
      = (applyDechunking e2 cs opts).1.map eraseChunkId ∧
    (applyDechunking e1 cs opts).2 = (applyDechunking e2 cs opts).2 := by
  unfold applyDechunking
  by_cases h : cs.length ≤ opts.maxChunksPerStep
  · rw [if_pos h, if_pos h]
    exact ⟨rfl, rfl⟩
  · rw [if_neg h, if_neg h]
    have haux : ∀ (groups : List (String × List CodeChunk))
        (acc1 acc2 : List CodeChunk × List String),
        acc1.1.map eraseChunkId = acc2.1.map eraseChunkId → acc1.2 = acc2.2 →
        (groups.foldl (fun acc g =>
          (acc.1 ++ (mergeFileChunks e1 opts.maxChunksPerStep g.1
            (jsSortBy (fun a b => a.startLine ≤ b.startLine) g.2)).1,
           acc.2 ++ (mergeFileChunks e1 opts.maxChunksPerStep g.1
            (jsSortBy (fun a b => a.startLine ≤ b.startLine) g.2)).2)) acc1).1.map
              eraseChunkId
          = (groups.foldl (fun acc g =>
            (acc.1 ++ (mergeFileChunks e2 opts.maxChunksPerStep g.1
              (jsSortBy (fun a b => a.startLine ≤ b.startLine) g.2)).1,
             acc.2 ++ (mergeFileChunks e2 opts.maxChunksPerStep g.1
              (jsSortBy (fun a b => a.startLine ≤ b.startLine) g.2)).2)) acc2).1.map
                eraseChunkId ∧
        (groups.foldl (fun acc g =>
          (acc.1 ++ (mergeFileChunks e1 opts.maxChunksPerStep g.1
            (jsSortBy (fun a b => a.startLine ≤ b.startLine) g.2)).1,
           acc.2 ++ (mergeFileChunks e1 opts.maxChunksPerStep g.1
            (jsSortBy (fun a b => a.startLine ≤ b.startLine) g.2)).2)) acc1).2
          = (groups.foldl (fun acc g =>
            (acc.1 ++ (mergeFileChunks e2 opts.maxChunksPerStep g.1
              (jsSortBy (fun a b => a.startLine ≤ b.startLine) g.2)).1,
             acc.2 ++ (mergeFileChunks e2 opts.maxChunksPerStep g.1
              (jsSortBy (fun a b => a.startLine ≤ b.startLine) g.2)).2)) acc2).2 := by
      intro groups
      induction groups with
      | nil => intro acc1 acc2 h1 h2; exact ⟨h1, h2⟩
      | cons g rest ihg =>
        intro acc1 acc2 h1 h2
        simp only [List.foldl_cons]
        have hmg := mergeFileChunks_eraseIds g.1 opts.maxChunksPerStep e1 e2
          (jsSortBy (fun a b => a.startLine ≤ b.startLine) g.2).length
          (jsSortBy (fun a b => a.startLine ≤ b.startLine) g.2) rfl
        exact ihg _ _
          (by rw [List.map_append, List.map_append, h1, hmg.1])
          (by rw [h2, hmg.2])
    exact haux (groupByKey (fun c => c.filePath) cs) ([], []) ([], []) rfl rfl

/-- validatePlan never consults the draw when the input plan already holds
a global scope. -/
theorem validatePlan_env_independent (plan : TaskPlan)
    (options : ValidatePlanOptions) (e1 e2 : String)
    (hg : ∃ sc ∈ plan.scopes, sc.kind = ScopeKind.Global) :
    validatePlan plan options e1 = validatePlan plan options e2 := by
  have hfind : ∃ g, (validatePlanLevels plan).1.scopes.find?
      (fun s => s.kind = ScopeKind.Global) = some g := by
    have hsc0 : (validatePlanLevels plan).1.scopes = plan.scopes := rfl
    rw [hsc0]
    obtain ⟨sc, hmem, hk⟩ := hg
    have : (plan.scopes.find? (fun s => s.kind = ScopeKind.Global)).isSome := by
      rw [List.find?_isSome]
      exact ⟨sc, hmem, by simpa using hk⟩
    exact Option.isSome_iff_exists.mp this
  obtain ⟨g, hgf⟩ := hfind
  have hsc : validatePlanScopes (validatePlanLevels plan).1 e1
      = validatePlanScopes (validatePlanLevels plan).1 e2 := by
    unfold validatePlanScopes
    rw [hgf]
  unfold validatePlan
  simp only [hsc]

/-- C7, counterexample: two invocations of chunkByFileRange on equal inputs
but different `Date.now()`/`Math.random()` draws return different outputs —
the generated chunk id embeds the draw, so ids differ between invocations. -/
theorem engine_output_depends_on_draw_counterexample :
    chunkByFileRange "draw1" "a.ts" 1 10 (optsNM 5 100)
      ≠ chunkByFileRange "draw2" "a.ts" 1 10 (optsNM 5 100) := by
  decide

/-- C7 as amended: every embedded engine operation is a pure function of
its input and the id draw. With the generated ids erased, the outputs of
chunkByFileRange, chunkLargeSymbol and applyDechunking (chunks and
warnings) do not depend on the draw at all; and validatePlan is entirely
draw-independent whenever the input plan already holds a global scope. -/
theorem engines_deterministic_given_draw :
    (∀ (e1 e2 f : String) (a b : Int) (opts : ChunkingOptions),
      (chunkByFileRange e1 f a b opts).map eraseChunkId
        = (chunkByFileRange e2 f a b opts).map eraseChunkId) ∧
    (∀ (e1 e2 f sn sk : String) (a b : Int) (code : String)
        (blocks : List BlockInfo) (comments : List Int)
        (opts : ChunkingOptions),
      (chunkLargeSymbol e1 f sn sk a b code blocks comments opts).map
          eraseChunkId
        = (chunkLargeSymbol e2 f sn sk a b code blocks comments opts).map
            eraseChunkId) ∧
    (∀ (e1 e2 : String) (cs : List CodeChunk) (opts : ChunkingOptions),
      (applyDechunking e1 cs opts).1.map eraseChunkId
        = (applyDechunking e2 cs opts).1.map eraseChunkId ∧
      (applyDechunking e1 cs opts).2 = (applyDechunking e2 cs opts).2) ∧
    (∀ (plan : TaskPlan) (options : ValidatePlanOptions) (e1 e2 : String),
      (∃ sc ∈ plan.scopes, sc.kind = ScopeKind.Global) →
      validatePlan plan options e1 = validatePlan plan options e2) :=
  ⟨fun e1 e2 f a b opts => chunkByFileRange_eraseIds e1 e2 f a b opts,
   fun e1 e2 f sn sk a b code blocks comments opts =>
     chunkLargeSymbol_eraseIds e1 e2 f sn sk a b code blocks comments opts,
   fun e1 e2 cs opts => applyDechunking_eraseIds e1 e2 cs opts,
   fun plan options e1 e2 hg =>
     validatePlan_env_independent plan options e1 e2 hg⟩

/-- Closed witness: validatePlan on a plan holding a global scope is
independent of the draw. -/
theorem engines_deterministic_given_draw_witness :
    validatePlan twoGlobalsPlan {} "draw1" = validatePlan twoGlobalsPlan {} "draw2" :=
  engines_deterministic_given_draw.2.2.2 twoGlobalsPlan {} "draw1" "draw2"
    (by decide)

/-- Membership through one insertion step of the stable sort. -/
theorem jsInsert_mem {α : Type} (le : α → α → Bool) (x y : α) (l : List α) :
    y ∈ jsInsert le x l ↔ y = x ∨ y ∈ l := by
  induction l with
  | nil => simp [jsInsert]
  | cons z zs ih =>
    simp only [jsInsert]
    split
    · simp only [List.mem_cons, ih]
      tauto
    · simp only [List.mem_cons]

/-- The stable sort never invents elements. -/
theorem jsSortBy_mem {α : Type} (le : α → α → Bool) (l : List α) (x : α) :
    x ∈ jsSortBy le l → x ∈ l := by
  have haux : ∀ acc, x ∈ l.foldl (fun acc y => jsInsert le y acc) acc →
      x ∈ l ∨ x ∈ acc := by
    induction l with
    | nil => intro acc hx; exact Or.inr hx
    | cons y ys ih =>
      intro acc hx
      simp only [List.foldl_cons] at hx
      rcases ih _ hx with h | h
      · exact Or.inl (List.mem_cons_of_mem _ h)
      · rw [jsInsert_mem] at h
        rcases h with rfl | h
        · exact Or.inl (List.mem_cons_self _ _)
        · exact Or.inr h
  intro hx
  rcases haux [] hx with h | h
  · exact h
  · simp at h

/-- Deduplication never invents elements. -/
theorem jsDedupAux_mem {α : Type} [DecidableEq α] (x : α) :
    ∀ (seen l : List α), x ∈ jsDedupAux seen l → x ∈ l := by
  intro seen l
  induction l generalizing seen with
  | nil => intro h; simp [jsDedupAux] at h
  | cons y ys ih =>
    intro h
    simp only [jsDedupAux] at h
    split at h
    · exact List.mem_cons_of_mem _ (ih _ h)
    · rcases List.mem_cons.mp h with rfl | h
      · exact List.mem_cons_self _ _
      · exact List.mem_cons_of_mem _ (ih _ h)

/-- Inserting into an ascending list keeps it ascending (Int comparator
`(a, b) => a - b` modelled as the ≤ test). -/
theorem jsInsert_chain (x : Int) (l : List Int)
    (hl : List.Chain' (fun a b => a ≤ b) l) :
    List.Chain' (fun a b => a ≤ b) (jsInsert (fun a b => a ≤ b) x l) := by
  induction l with
  | nil => simp [jsInsert]
  | cons y ys ih =>
    simp only [jsInsert]
    split
    · rename_i hle
      rw [List.chain'_cons']
      refine ⟨?_, ih (List.chain'_cons'.mp hl).2⟩
      intro b hb
      match ys with
      | [] =>
        simp only [jsInsert, Option.mem_def] at hb
        cases hb
        simpa using hle
      | z :: zs =>
        simp only [jsInsert] at hb
        split at hb
        · simp only [List.head?_cons, Option.mem_def, Option.some.injEq] at hb
          subst hb
          exact (List.chain'_cons.mp hl).1
        · simp only [List.head?_cons, Option.mem_def, Option.some.injEq] at hb
          subst hb
          simpa using hle
    · rename_i hgt
      rw [List.chain'_cons]
      refine ⟨?_, hl⟩
      simp only [decide_eq_true_eq] at hgt
      omega

/-- Sorting with the ascending Int comparator yields an ascending list. -/
theorem jsSortBy_int_chain (l : List Int) :
    List.Chain' (fun a b => a ≤ b) (jsSortBy (fun a b => a ≤ b) l) := by
  have haux : ∀ acc, List.Chain' (fun a b => a ≤ b) acc →
      List.Chain' (fun a b => a ≤ b)
        (l.foldl (fun acc x => jsInsert (fun a b => a ≤ b) x acc) acc) := by
    induction l with
    | nil => intro acc h; exact h
    | cons x xs ih =>
      intro acc h
      simp only [List.foldl_cons]
      exact ih _ (jsInsert_chain x acc h)
  exact haux [] (by simp)

/-- Every window emitted by the inner split loop lies inside
`[currentStart, chunkEnd]`, is a well-formed span, spans at most `maxL`
lines, and is a SubSymbol chunk. -/
theorem symbolWindows_range (env f sn sk : String) (blocks : List BlockInfo)
    (lines : List String) (startLine : Int) (inc : Bool) (m : Nat)
    (chunkEnd : Int) :
    ∀ (n : Nat) (cs : Int) (idx : Nat), (chunkEnd + 1 - cs).toNat = n →
      ∀ c ∈ (symbolWindows env f sn sk blocks lines startLine inc (m + 1)
          chunkEnd cs idx).1,
        cs ≤ c.startLine ∧ c.startLine ≤ c.endLine ∧ c.endLine ≤ chunkEnd ∧
        c.endLine - c.startLine + 1 ≤ (m : Int) + 1 ∧
        c.type = ChunkType.SubSymbol := by
  intro n
  induction n using Nat.strong_induction_on with
  | _ n ih =>
    intro cs idx hn c hc
    unfold symbolWindows at hc
    by_cases h : cs ≤ chunkEnd
    · rw [dif_pos h] at hc
      simp only [List.mem_cons] at hc
      rcases hc with rfl | hc
      · refine ⟨le_refl _, ?_, ?_, ?_, rfl⟩
        · show cs ≤ min (cs + (m : Int)) chunkEnd
          simp only [Int.min_def]
          split <;> omega
        · show min (cs + (m : Int)) chunkEnd ≤ chunkEnd
          exact min_le_right _ _
        · show min (cs + (m : Int)) chunkEnd - cs + 1 ≤ (m : Int) + 1
          simp only [Int.min_def]
          split <;> omega
      · have hrec := ih (chunkEnd + 1 - (min (cs + m) chunkEnd + 1)).toNat
          (by
            rw [← hn]
            rcases le_total (cs + (m : Int)) chunkEnd with h2 | h2
            · rw [min_eq_left h2]
              omega
            · rw [min_eq_right h2]
              omega)
          (min (cs + m) chunkEnd + 1) (idx + 1) rfl c hc
        refine ⟨?_, hrec.2.1, hrec.2.2.1, hrec.2.2.2⟩
        have hm : cs ≤ min (cs + (m : Int)) chunkEnd + 1 := by
          simp only [Int.min_def]
          split <;> omega
        exact le_trans hm hrec.1
    · rw [dif_neg h] at hc
      simp at hc

/-- Every chunk emitted by the boundary-pair walk lies between the walk's
bounds, is a well-formed span of at most `maxL` lines, and is a SubSymbol
chunk, provided the boundary list is ascending and bounded. -/
theorem subChunksGo_range (env f sn sk : String) (blocks : List BlockInfo)
    (lines : List String) (startLine : Int) (inc : Bool) (m : Nat)
    (lo hi : Int) :
    ∀ (bs : List Int) (idx : Nat),
      List.Chain' (fun a b => a ≤ b) bs → (∀ x ∈ bs, lo ≤ x ∧ x ≤ hi) →
      ∀ c ∈ subChunksGo env f sn sk blocks lines startLine inc (m + 1) bs idx,
        lo ≤ c.startLine ∧ c.startLine ≤ c.endLine ∧ c.endLine ≤ hi ∧
        c.endLine - c.startLine + 1 ≤ (m : Int) + 1 ∧
        c.type = ChunkType.SubSymbol := by
  intro bs
  induction bs with
  | nil =>
    intro idx _ _ c hc
    simp [subChunksGo] at hc
  | cons b1 rest ih =>
    intro idx hchain hb c hc
    match rest with
    | [] => simp [subChunksGo] at hc
    | b2 :: rest2 =>
      unfold subChunksGo at hc
      by_cases hskip : b2 - b1 + 1 < 5 ∧ rest2 ≠ []
      · rw [if_pos hskip] at hc
        exact ih idx (List.chain'_cons.mp hchain).2
          (fun x hx => hb x (List.mem_cons_of_mem _ hx)) c hc
      · rw [if_neg hskip] at hc
        by_cases hbig : b2 - b1 + 1 > ((m + 1 : Nat) : Int)
        · rw [if_pos hbig] at hc
          rw [List.mem_append] at hc
          rcases hc with hw | hrest
          · have hr := symbolWindows_range env f sn sk blocks lines startLine
              inc m b2 ((b2 + 1 - b1).toNat) b1 idx rfl c hw
            have hb1 := hb b1 (List.mem_cons_self _ _)
            have hb2 := hb b2 (List.mem_cons_of_mem _ (List.mem_cons_self _ _))
            exact ⟨le_trans hb1.1 hr.1, hr.2.1, le_trans hr.2.2.1 hb2.2,
              hr.2.2.2⟩
          · exact ih _ (List.chain'_cons.mp hchain).2
              (fun x hx => hb x (List.mem_cons_of_mem _ hx)) c hrest
        · rw [if_neg hbig] at hc
          simp only [List.mem_cons] at hc
          rcases hc with rfl | hc
          · have hb1 := hb b1 (List.mem_cons_self _ _)
            have hb2 := hb b2 (List.mem_cons_of_mem _ (List.mem_cons_self _ _))
            have h12 : b1 ≤ b2 := (List.chain'_cons.mp hchain).1
            refine ⟨hb1.1, h12, hb2.2, ?_, rfl⟩
            show b2 - b1 + 1 ≤ (m : Int) + 1
            push_cast at hbig
            omega
          · exact ih _ (List.chain'_cons.mp hchain).2
              (fun x hx => hb x (List.mem_cons_of_mem _ hx)) c hc

/-- C10: every sub-chunk emitted by chunkLargeSymbol spans a closed
interval inside the symbol's `[startLine, endLine]` (given a positive line
limit and boundary inputs inside the symbol) with at most maxLinesPerChunk
lines, of type SubSymbol; and on a concrete oversized symbol (range 1-100,
one detected block 30-60, a comment boundary at 62) the emitted spans are
`[(1,30), (30,60), (62,100)]`: adjacent sub-chunks share their boundary
line 30 (the end of one is the start of the next, so spans overlap), and
the short pair `(60,62)` (3 lines < 5, not the final pair) is omitted, so
line 61 is covered by no sub-chunk and the union of spans does not cover
the symbol. -/
theorem chunkLargeSymbol_subchunk_spans :
    (∀ (env f sn sk : String) (startLine endLine : Int) (code : String)
        (blocks : List BlockInfo) (comments : List Int)
        (opts : ChunkingOptions),
      1 ≤ opts.maxLinesPerChunk →
      startLine ≤ endLine →
      (∀ bl ∈ blocks, startLine ≤ bl.startLine ∧ bl.startLine ≤ endLine ∧
        startLine ≤ bl.endLine ∧ bl.endLine ≤ endLine) →
      (∀ cb ∈ comments, startLine ≤ cb ∧ cb ≤ endLine) →
      ∀ c ∈ chunkLargeSymbol env f sn sk startLine endLine code blocks
          comments opts,
        startLine ≤ c.startLine ∧ c.startLine ≤ c.endLine ∧
        c.endLine ≤ endLine ∧
        c.endLine - c.startLine + 1 ≤ (opts.maxLinesPerChunk : Int) ∧
        c.type = ChunkType.SubSymbol) ∧
    (chunkLargeSymbol "e" "f.ts" "sym" "function" 1 100 ""
        [⟨"if", 30, 60, 0⟩] [62] (optsNM 5 100)).map
      (fun c => (c.startLine, c.endLine)) = [(1, 30), (30, 60), (62, 100)] := by
  constructor
  · intro env f sn sk startLine endLine code blocks comments opts h1 hse hbl
      hcb c hc
    obtain ⟨m, hm⟩ : ∃ m, opts.maxLinesPerChunk = m + 1 :=
      ⟨opts.maxLinesPerChunk - 1, by omega⟩
    unfold chunkLargeSymbol at hc
    rw [hm] at hc
    have hchain := jsSortBy_int_chain (jsDedup
      ([startLine] ++ blocks.flatMap (fun b => [b.startLine, b.endLine])
        ++ comments ++ [endLine]))
    have hbounds : ∀ x ∈ jsSortBy (fun a b => a ≤ b) (jsDedup
        ([startLine] ++ blocks.flatMap (fun b => [b.startLine, b.endLine])
          ++ comments ++ [endLine])), startLine ≤ x ∧ x ≤ endLine := by
      intro x hx
      have hx2 := jsDedupAux_mem x [] _ (jsSortBy_mem _ _ x hx)
      simp only [List.mem_append, List.mem_flatMap, List.mem_cons,
        List.mem_singleton, List.not_mem_nil, or_false] at hx2
      rcases hx2 with ((rfl | ⟨bl, hblm, hx3⟩) | hx3) | rfl
      · exact ⟨le_refl _, hse⟩
      · rcases hx3 with rfl | rfl
        · exact ⟨(hbl bl hblm).1, (hbl bl hblm).2.1⟩
        · exact ⟨(hbl bl hblm).2.2.1, (hbl bl hblm).2.2.2⟩
      · exact hcb x hx3
      · exact ⟨hse, le_refl _⟩
    have hr := subChunksGo_range env f sn sk blocks (splitLines code)
      startLine opts.includeContent m startLine endLine
      (jsSortBy (fun a b => a ≤ b) (jsDedup
        ([startLine] ++ blocks.flatMap (fun b => [b.startLine, b.endLine])
          ++ comments ++ [endLine]))) 0 hchain hbounds c hc
    rw [hm]
    exact hr
  · decide

/-- Closed witness: the concrete oversized symbol's first emitted sub-chunk
obeys the span bounds of the universal part. -/
theorem chunkLargeSymbol_subchunk_spans_witness :
    (1 : Int) ≤ ((chunkLargeSymbol "e" "f.ts" "sym" "function" 1 100 ""
        [⟨"if", 30, 60, 0⟩] [62] (optsNM 5 100)).getD 0
      (sampleChunk 0 "x" 0 0)).startLine ∧
    ((chunkLargeSymbol "e" "f.ts" "sym" "function" 1 100 ""
        [⟨"if", 30, 60, 0⟩] [62] (optsNM 5 100)).getD 0
      (sampleChunk 0 "x" 0 0)).startLine
      ≤ ((chunkLargeSymbol "e" "f.ts" "sym" "function" 1 100 ""
        [⟨"if", 30, 60, 0⟩] [62] (optsNM 5 100)).getD 0
      (sampleChunk 0 "x" 0 0)).endLine ∧
    ((chunkLargeSymbol "e" "f.ts" "sym" "function" 1 100 ""
        [⟨"if", 30, 60, 0⟩] [62] (optsNM 5 100)).getD 0
      (sampleChunk 0 "x" 0 0)).endLine ≤ 100 ∧
    ((chunkLargeSymbol "e" "f.ts" "sym" "function" 1 100 ""
        [⟨"if", 30, 60, 0⟩] [62] (optsNM 5 100)).getD 0
      (sampleChunk 0 "x" 0 0)).endLine
      - ((chunkLargeSymbol "e" "f.ts" "sym" "function" 1 100 ""
        [⟨"if", 30, 60, 0⟩] [62] (optsNM 5 100)).getD 0
      (sampleChunk 0 "x" 0 0)).startLine + 1
      ≤ (((optsNM 5 100).maxLinesPerChunk : Nat) : Int) ∧
    ((chunkLargeSymbol "e" "f.ts" "sym" "function" 1 100 ""
        [⟨"if", 30, 60, 0⟩] [62] (optsNM 5 100)).getD 0
      (sampleChunk 0 "x" 0 0)).type = ChunkType.SubSymbol :=
  chunkLargeSymbol_subchunk_spans.1 "e" "f.ts" "sym" "function" 1 100 ""
    [⟨"if", 30, 60, 0⟩] [62] (optsNM 5 100) (by decide) (by decide)
    (by decide) (by decide) _ (by decide)
